import Mathlib

/-!
Verification development for the KE-Origin embedding-backed vector index
(`lib/embeddings.ts`, `lib/schemas.ts`, `lib/indexStore.ts`).

The TypeScript source is shallowly embedded:
* JSON runtime values are the inductive `Json` (JavaScript numbers as `ℚ`).
* The zod schemas `zEmbeddingRecord` and `zEmbeddingIndexMeta` become the
  parsers `zEmbeddingRecordParse` and `zEmbeddingIndexMetaParse`.
* The per-process mutable state (Drive content plus `indexCache`) becomes an
  explicit `World` record threaded through every operation; `nowIso`, the
  Drive write outcome, and `Math.sqrt` are supplied by an `Env` of oracles.
* Fallible code returns `Except`.
-/

/-- A JSON/JavaScript runtime value.  JavaScript numbers are modelled as
exact rationals. -/
inductive Json where
  | null : Json
  | bool : Bool → Json
  | num : ℚ → Json
  | str : String → Json
  | arr : List Json → Json
  | obj : List (String × Json) → Json

/-- Key lookup in a JSON object (`o[key]`); `none` models `undefined`. -/
def Json.lookup (key : String) : Json → Option Json
  | .obj kvs => kvs.lookup key
  | _ => none

/-- `EmbeddingSourceTypeLiteral = ["knowledgeNode","conversationLog","documentChunk"]`
from `lib/schemas.ts`. -/
inductive EmbeddingSourceType where
  | knowledgeNode : EmbeddingSourceType
  | conversationLog : EmbeddingSourceType
  | documentChunk : EmbeddingSourceType
deriving DecidableEq, Repr

/-- `KnowledgeNodeTypeLiteral = ["note","summary","principle","spec","log","other"]`
from `lib/schemas.ts`. -/
inductive KnowledgeNodeType where
  | note : KnowledgeNodeType
  | summary : KnowledgeNodeType
  | principle : KnowledgeNodeType
  | spec : KnowledgeNodeType
  | log : KnowledgeNodeType
  | other : KnowledgeNodeType
deriving DecidableEq, Repr

/-- The optional `meta` object of an `EmbeddingRecord` (`lib/schemas.ts`). -/
structure EmbeddingMeta where
  model : Option String
  nodeType : Option KnowledgeNodeType
  sourceRef : Option String
deriving DecidableEq, Repr

/-- `EMBEDDING_RECORD_SCHEMA_VERSION = 1` from `lib/schemas.ts`. -/
def EMBEDDING_RECORD_SCHEMA_VERSION : Nat := 1

/-- A parsed `EmbeddingRecord` (the output type of `zEmbeddingRecord`,
`lib/schemas.ts`).  `schemaVersion` is a nonnegative integer, stored as `Nat`. -/
structure EmbeddingRecord where
  id : String
  schemaVersion : Nat
  sourceType : EmbeddingSourceType
  sourceId : String
  vector : List ℚ
  createdAt : String
  meta : Option EmbeddingMeta
deriving DecidableEq, Repr

/-- Is this character whitespace for the purposes of `String.prototype.trim`
(modelled over the ASCII whitespace characters)? -/
def isJsWhitespace (c : Char) : Bool :=
  c = ' ' || c = '\t' || c = '\n' || c = '\r' || c = '\x0b' || c = '\x0c'

/-- JavaScript `String.prototype.trim`: drop whitespace from both ends. -/
def jsTrim (s : String) : String :=
  ⟨((s.data.dropWhile isJsWhitespace).reverse.dropWhile isJsWhitespace).reverse⟩

/-- After `"SS"`, an ISO datetime allows one or more fractional digits then
`'Z'` (helper for `isIsoDatetime`). -/
def isoFracDigitsThenZ : List Char → Bool
  | [] => false
  | ['Z'] => true
  | c :: cs => c.isDigit && isoFracDigitsThenZ cs

/-- Tail of an ISO datetime after the seconds: `"Z"` or `"." digits "Z"`
(helper for `isIsoDatetime`). -/
def isoTail : List Char → Bool
  | ['Z'] => true
  | '.' :: c :: cs => c.isDigit && isoFracDigitsThenZ (c :: cs)
  | _ => false

/-- `zIsoDateString = z.string().datetime()` from `lib/schemas.ts`: the string
must match `^\d\x7b4\x7d-\d\x7b2\x7d-\d\x7b2\x7dT\d\x7b2\x7d:\d\x7b2\x7d:\d\x7b2\x7d(\.\d+)?Z$`
(zod's default: UTC only, arbitrary sub-second precision). -/
def isIsoDatetime (s : String) : Bool :=
  match s.data with
  | y1 :: y2 :: y3 :: y4 :: '-' :: m1 :: m2 :: '-' :: d1 :: d2 :: 'T' ::
      h1 :: h2 :: ':' :: n1 :: n2 :: ':' :: s1 :: s2 :: rest =>
    ([y1, y2, y3, y4, m1, m2, d1, d2, h1, h2, n1, n2, s1, s2].all Char.isDigit)
      && isoTail rest
  | _ => false

/-- `z.string().min(1)` applied to a JSON value. -/
def parseNonEmptyString : Json → Option String
  | .str s => if s.length ≥ 1 then some s else none
  | _ => none

/-- `z.enum(EmbeddingSourceTypeLiteral)` applied to a JSON value. -/
def parseSourceType : Json → Option EmbeddingSourceType
  | .str "knowledgeNode" => some .knowledgeNode
  | .str "conversationLog" => some .conversationLog
  | .str "documentChunk" => some .documentChunk
  | _ => none

/-- `z.enum(KnowledgeNodeTypeLiteral)` applied to a JSON value. -/
def parseNodeType : Json → Option KnowledgeNodeType
  | .str "note" => some .note
  | .str "summary" => some .summary
  | .str "principle" => some .principle
  | .str "spec" => some .spec
  | .str "log" => some .log
  | .str "other" => some .other
  | _ => none

/-- An optional object field of a given shape (`zod .optional()`): an absent
key parses to `none`; a present key must parse. -/
def parseOptField (p : Json → Option α) : Option Json → Option (Option α)
  | none => some none
  | some v => (p v).map some

/-- `z.number().int().nonnegative()` applied to a JSON value, yielding the
integer as a `Nat`. -/
def parseNonnegInt : Json → Option Nat
  | .num q => if q.den = 1 && 0 ≤ q.num then some q.num.toNat else none
  | _ => none

/-- `z.array(z.number())` applied to a JSON value. -/
def parseNumberArray : Json → Option (List ℚ)
  | .arr xs => xs.mapM (fun v => match v with | .num q => some q | _ => none)
  | _ => none

/-- `zIsoDateString` applied to a JSON value: a string passing `isIsoDatetime`. -/
def parseIsoString : Json → Option String
  | .str s => if isIsoDatetime s then some s else none
  | _ => none

/-- The `schemaVersion` field parse with zod's `.default(...)`: an absent key
yields `EMBEDDING_RECORD_SCHEMA_VERSION`; a present value must be a
nonnegative integer. -/
def parseSchemaVersionField : Option Json → Option Nat
  | none => some EMBEDDING_RECORD_SCHEMA_VERSION
  | some v => parseNonnegInt v

/-- The `meta` sub-schema of `zEmbeddingRecord` (`lib/schemas.ts`): an object
with optional `model` (non-empty string), `nodeType` (enum) and `sourceRef`
(non-empty string); unknown keys are stripped. -/
def parseEmbeddingMeta : Json → Option EmbeddingMeta
  | .obj kvs => do
    let model ← parseOptField parseNonEmptyString ((Json.obj kvs).lookup "model")
    let nodeType ← parseOptField parseNodeType ((Json.obj kvs).lookup "nodeType")
    let sourceRef ← parseOptField parseNonEmptyString ((Json.obj kvs).lookup "sourceRef")
    pure ⟨model, nodeType, sourceRef⟩
  | _ => none

/-- `zEmbeddingRecord.safeParse` (`lib/schemas.ts`): validates `id`
(non-empty string), `schemaVersion` (nonnegative integer, defaulting to
`EMBEDDING_RECORD_SCHEMA_VERSION` when the key is absent), `sourceType`
(enum), `sourceId` (non-empty string), `vector` (array of numbers, at least
one dimension), `createdAt` (ISO datetime string) and the optional `meta`
object.  `none` models a failed `safeParse`. -/
def zEmbeddingRecordParse (j : Json) : Option EmbeddingRecord :=
  match j with
  | .obj _ => do
    let id ← (j.lookup "id").bind parseNonEmptyString
    let schemaVersion ← parseSchemaVersionField (j.lookup "schemaVersion")
    let sourceType ← (j.lookup "sourceType").bind parseSourceType
    let sourceId ← (j.lookup "sourceId").bind parseNonEmptyString
    let vector ← (j.lookup "vector").bind parseNumberArray
    if vector.length ≥ 1 then
      let createdAt ← (j.lookup "createdAt").bind parseIsoString
      let meta ← parseOptField parseEmbeddingMeta (j.lookup "meta")
      pure ⟨id, schemaVersion, sourceType, sourceId, vector, createdAt, meta⟩
    else none
  | _ => none

/-- Encode an `EmbeddingSourceType` back to its literal string. -/
def encodeSourceType : EmbeddingSourceType → String
  | .knowledgeNode => "knowledgeNode"
  | .conversationLog => "conversationLog"
  | .documentChunk => "documentChunk"

/-- Encode a `KnowledgeNodeType` back to its literal string. -/
def encodeNodeType : KnowledgeNodeType → String
  | .note => "note"
  | .summary => "summary"
  | .principle => "principle"
  | .spec => "spec"
  | .log => "log"
  | .other => "other"

/-- The runtime object a parsed `meta` denotes (absent optional keys are
omitted, as `JSON.stringify` drops `undefined` properties). -/
def encodeEmbeddingMeta (m : EmbeddingMeta) : Json :=
  Json.obj
    ((match m.model with | some s => [("model", Json.str s)] | none => []) ++
     (match m.nodeType with
      | some t => [("nodeType", Json.str (encodeNodeType t))]
      | none => []) ++
     (match m.sourceRef with | some s => [("sourceRef", Json.str s)] | none => []))

/-- The runtime object a parsed `EmbeddingRecord` denotes: exactly the known
keys, with defaults filled in by the parse. -/
def encodeEmbeddingRecord (r : EmbeddingRecord) : Json :=
  Json.obj
    ([("id", Json.str r.id),
      ("schemaVersion", Json.num (r.schemaVersion : ℚ)),
      ("sourceType", Json.str (encodeSourceType r.sourceType)),
      ("sourceId", Json.str r.sourceId),
      ("vector", Json.arr (r.vector.map Json.num)),
      ("createdAt", Json.str r.createdAt)] ++
     (match r.meta with | some m => [("meta", encodeEmbeddingMeta m)] | none => []))

/-- The structural constraints `zEmbeddingRecord` imposes, phrased on the
parsed representation: exactly the records whose canonical runtime object
passes `zEmbeddingRecordParse`. -/
def WellFormedRecord (r : EmbeddingRecord) : Prop :=
  r.id.length ≥ 1 ∧ r.sourceId.length ≥ 1 ∧ r.vector.length ≥ 1 ∧
    isIsoDatetime r.createdAt = true ∧
    (match r.meta with
     | none => True
     | some m =>
       (∀ s, m.model = some s → s.length ≥ 1) ∧
       (∀ s, m.sourceRef = some s → s.length ≥ 1))

instance (r : EmbeddingRecord) : Decidable (WellFormedRecord r) := by
  unfold WellFormedRecord
  cases r.meta <;> dsimp only <;> infer_instance

/-- The outer shape `zEmbeddingIndexMeta` of the persisted index file
(`lib/indexStore.ts`): `schemaVersion` (integer ≥ 1), `createdAt`/`updatedAt`
(plain strings) and `records` as a generic JSON sequence. -/
structure EmbeddingIndexMeta where
  schemaVersion : Nat
  createdAt : String
  updatedAt : String
  records : List Json

/-- `z.number().int().min(1)` applied to a JSON value. -/
def parsePositiveInt : Json → Option Nat
  | .num q => if q.den = 1 && 1 ≤ q.num then some q.num.toNat else none
  | _ => none

/-- `z.string()` applied to a JSON value. -/
def parseAnyString : Json → Option String
  | .str s => some s
  | _ => none

/-- `zEmbeddingIndexMeta.safeParse` (`lib/indexStore.ts`). -/
def zEmbeddingIndexMetaParse (j : Json) : Option EmbeddingIndexMeta :=
  match j with
  | .obj _ => do
    let schemaVersion ← (j.lookup "schemaVersion").bind parsePositiveInt
    let createdAt ← (j.lookup "createdAt").bind parseAnyString
    let updatedAt ← (j.lookup "updatedAt").bind parseAnyString
    let records ← (j.lookup "records").bind (fun v =>
      match v with | .arr xs => some xs | _ => none)
    pure ⟨schemaVersion, createdAt, updatedAt, records⟩
  | _ => none

/-- `EMBEDDING_INDEX_SCHEMA_VERSION = 1` from `lib/indexStore.ts`. -/
def EMBEDDING_INDEX_SCHEMA_VERSION : Nat := 1

/-- The in-memory `EmbeddingIndexFile` of `lib/indexStore.ts`: meta plus
fully validated records. -/
structure EmbeddingIndexFile where
  schemaVersion : Nat
  createdAt : String
  updatedAt : String
  records : List EmbeddingRecord
deriving DecidableEq, Repr

/-- The JSON document `saveIndexFileToDrive` writes for an index file. -/
def encodeEmbeddingIndexFile (f : EmbeddingIndexFile) : Json :=
  Json.obj
    [("schemaVersion", Json.num (f.schemaVersion : ℚ)),
     ("createdAt", Json.str f.createdAt),
     ("updatedAt", Json.str f.updatedAt),
     ("records", Json.arr (f.records.map encodeEmbeddingRecord))]

/-- `CachedEmbedding` (`lib/indexStore.ts`): a validated record plus its
precomputed Euclidean norm. -/
structure CachedEmbedding where
  record : EmbeddingRecord
  norm : ℚ
deriving DecidableEq, Repr

/-- The `fileMeta` component of the in-memory `indexCache`. -/
structure IndexFileMeta where
  schemaVersion : Nat
  createdAt : String
  updatedAt : String
deriving DecidableEq, Repr

/-- The in-memory `indexCache` value (when non-null). -/
structure IndexCache where
  fileMeta : IndexFileMeta
  embeddings : List CachedEmbedding
deriving DecidableEq, Repr

/-- The mutable state of one process: the Drive blob under
`Index/embeddings-metadata.json` (`none` = file absent), the module-level
`indexCache` (`none` = not yet loaded), a clock counting `nowIso()` calls and
a counter of Drive write attempts. -/
structure World where
  drive : Option Json
  cache : Option IndexCache
  clock : Nat
  saveCount : Nat

/-- Oracles for the effects the index store performs: `now n` is the string
`nowIso()` returns on its `n`-th call, `saveOk n` tells whether the `n`-th
Drive write succeeds, and `sqrt` models `Math.sqrt` on the exact rationals. -/
structure Env where
  now : Nat → String
  saveOk : Nat → Bool
  sqrt : ℚ → ℚ

/-- The failures `lib/indexStore.ts` can throw (each constructor stands for
one `throw new Error(...)` site, carrying the data interpolated into the
message). -/
inductive IndexError where
  | corruptIndexFile : IndexError
  | driveSaveFailed : IndexError
  | cacheNotInitialized : String → IndexError
  | invalidRecordValue : String → IndexError
  | emptyVectorInCache : String → IndexError
  | invalidQueryVector : IndexError
  | dimensionMismatch : Nat → Nat → IndexError
  | zeroNormQuery : IndexError
deriving DecidableEq, Repr

/-- `driveClient.saveJson` at the index key: overwrites the whole blob on
success; on failure the previous content stays. -/
def saveJson (env : Env) (doc : Json) (w : World) : Except IndexError Unit × World :=
  if env.saveOk w.saveCount then
    (.ok (), { w with drive := some doc, saveCount := w.saveCount + 1 })
  else
    (.error .driveSaveFailed, { w with saveCount := w.saveCount + 1 })

/-- The accumulation loop of `computeNorm`: `sumSq += v * v`. -/
def sumOfSquares (vec : List ℚ) : ℚ :=
  vec.foldl (fun sumSq v => sumSq + v * v) 0

/-- `computeNorm` (`lib/indexStore.ts`): `Math.sqrt` of the sum of squares.
Returns 0 for empty or all-zero vectors whenever `env.sqrt 0 = 0`. -/
def computeNorm (env : Env) (vec : List ℚ) : ℚ :=
  env.sqrt (sumOfSquares vec)

/-- `dotProduct` (`lib/indexStore.ts`).  As in the source ("Assumes lengths
are equal; caller is responsible for checking"), only equal-length inputs are
meaningful. -/
def dotProduct (a b : List ℚ) : ℚ :=
  (List.zipWith (fun x y => x * y) a b).foldl (fun acc v => acc + v) 0

/-- `loadIndexFileFromDrive` (`lib/indexStore.ts`): absent file yields
`none`; an invalid outer shape is fatal; otherwise each entry of `records` is
validated independently and malformed entries are skipped. -/
def loadIndexFileFromDrive (w : World) : Except IndexError (Option EmbeddingIndexFile) :=
  match w.drive with
  | none => .ok none
  | some raw =>
    match zEmbeddingIndexMetaParse raw with
    | none => .error .corruptIndexFile
    | some meta =>
      .ok (some ⟨meta.schemaVersion, meta.createdAt, meta.updatedAt,
        meta.records.filterMap zEmbeddingRecordParse⟩)

/-- `saveIndexFileToDrive` (`lib/indexStore.ts`): refreshes `updatedAt` with
a fresh `nowIso()` and writes the complete document. -/
def saveIndexFileToDrive (env : Env) (file : EmbeddingIndexFile) (w : World) :
    Except IndexError Unit × World :=
  let updatedAt := env.now w.clock
  let w1 : World := { w with clock := w.clock + 1 }
  saveJson env (encodeEmbeddingIndexFile { file with updatedAt := updatedAt }) w1

/-- `buildCachedEmbeddings` (`lib/indexStore.ts`): pairs each record with its
precomputed norm, throwing on an empty vector. -/
def buildCachedEmbeddings (env : Env) :
    List EmbeddingRecord → Except IndexError (List CachedEmbedding)
  | [] => .ok []
  | r :: rs =>
    if r.vector.length = 0 then .error (.emptyVectorInCache r.id)
    else do
      let rest ← buildCachedEmbeddings env rs
      pure (⟨r, computeNorm env r.vector⟩ :: rest)

/-- `ensureIndexLoaded` (`lib/indexStore.ts`): no-op when the cache is
populated; otherwise loads from Drive, or initializes and persists an empty
index when the file is absent. -/
def ensureIndexLoaded (env : Env) (w : World) : Except IndexError Unit × World :=
  match w.cache with
  | some _ => (.ok (), w)
  | none =>
    match loadIndexFileFromDrive w with
    | .error e => (.error e, w)
    | .ok none =>
      let now := env.now w.clock
      let w1 : World := { w with clock := w.clock + 1 }
      let empty : EmbeddingIndexFile := ⟨EMBEDDING_INDEX_SCHEMA_VERSION, now, now, []⟩
      match saveIndexFileToDrive env empty w1 with
      | (.error e, w2) => (.error e, w2)
      | (.ok _, w2) =>
        (.ok (), { w2 with
          cache := some ⟨⟨empty.schemaVersion, empty.createdAt, empty.updatedAt⟩, []⟩ })
    | .ok (some loaded) =>
      match buildCachedEmbeddings env loaded.records with
      | .error e => (.error e, w)
      | .ok embeddings =>
        (.ok (), { w with
          cache := some ⟨⟨loaded.schemaVersion, loaded.createdAt, loaded.updatedAt⟩,
            embeddings⟩ })

/-- `loadIndex` (`lib/indexStore.ts`): ensures the cache is loaded and
returns the cached records in cache order. -/
def loadIndex (env : Env) (w : World) : Except IndexError (List EmbeddingRecord) × World :=
  match ensureIndexLoaded env w with
  | (.error e, w1) => (.error e, w1)
  | (.ok _, w1) =>
    match w1.cache with
    | none => (.error (.cacheNotInitialized "loadIndex"), w1)
    | some c => (.ok (c.embeddings.map (fun entry => entry.record)), w1)

/-- The validation loop of `saveIndex`: each incoming value is re-validated
with `zEmbeddingRecord.safeParse`, failing on the first invalid one. -/
def validateRecords : List Json → Except IndexError (List EmbeddingRecord)
  | [] => .ok []
  | r :: rs =>
    match zEmbeddingRecordParse r with
    | none => .error (.invalidRecordValue "saveIndex")
    | some parsed => do
      let rest ← validateRecords rs
      pure (parsed :: rest)

/-- `saveIndex` (`lib/indexStore.ts`): ensures the cache is loaded, builds a
fresh file (keeping `createdAt` unless it is falsy), validates every incoming
value before any write, persists the file, and only then swaps the in-memory
cache.  Inputs are runtime values (`Json`) because `safeParse` re-checks them
at run time. -/
def saveIndex (env : Env) (records : List Json) (w : World) : Except IndexError Unit × World :=
  match ensureIndexLoaded env w with
  | (.error e, w1) => (.error e, w1)
  | (.ok _, w1) =>
    match w1.cache with
    | none => (.error (.cacheNotInitialized "saveIndex"), w1)
    | some c =>
      -- const createdAt = indexCache.fileMeta.createdAt || nowIso();
      let createdAtW : String × World :=
        if c.fileMeta.createdAt = "" then
          (env.now w1.clock, { w1 with clock := w1.clock + 1 })
        else (c.fileMeta.createdAt, w1)
      let createdAt := createdAtW.1
      let w2 := createdAtW.2
      -- the `updatedAt: nowIso()` field of the file literal
      let updatedAt := env.now w2.clock
      let w3 : World := { w2 with clock := w2.clock + 1 }
      match validateRecords records with
      | .error e => (.error e, w3)
      | .ok validatedRecords =>
        let file : EmbeddingIndexFile :=
          ⟨EMBEDDING_INDEX_SCHEMA_VERSION, createdAt, updatedAt, validatedRecords⟩
        match saveIndexFileToDrive env file w3 with
        | (.error e, w4) => (.error e, w4)
        | (.ok _, w4) =>
          match buildCachedEmbeddings env validatedRecords with
          | .error e => (.error e, w4)
          | .ok embeddings =>
            (.ok (), { w4 with
              cache := some ⟨⟨file.schemaVersion, file.createdAt, file.updatedAt⟩,
                embeddings⟩ })

/-- The scan-and-replace loop of `addEmbedding`: replace the first record
matching on `id` or on `(sourceType, sourceId)`, else append. -/
def upsertList (v : EmbeddingRecord) : List EmbeddingRecord → List EmbeddingRecord
  | [] => [v]
  | r :: rs =>
    if r.id = v.id ∨ (r.sourceType = v.sourceType ∧ r.sourceId = v.sourceId) then
      v :: rs
    else r :: upsertList v rs

/-- `addEmbedding` (`lib/indexStore.ts`): validates the incoming value,
upserts it into the cached record list and persists via `saveIndex` (passing
the in-memory record objects, which `saveIndex` re-validates). -/
def addEmbedding (env : Env) (record : Json) (w : World) : Except IndexError Unit × World :=
  match ensureIndexLoaded env w with
  | (.error e, w1) => (.error e, w1)
  | (.ok _, w1) =>
    match w1.cache with
    | none => (.error (.cacheNotInitialized "addEmbedding"), w1)
    | some c =>
      match zEmbeddingRecordParse record with
      | none => (.error (.invalidRecordValue "addEmbedding"), w1)
      | some validRecord =>
        let records := c.embeddings.map (fun entry => entry.record)
        saveIndex env ((upsertList validRecord records).map encodeEmbeddingRecord) w1

/-- A `search` result: record plus cosine-similarity score
(`lib/indexStore.ts`). -/
structure SearchResult where
  record : EmbeddingRecord
  score : ℚ
deriving DecidableEq, Repr

/-- The order the comparator `(a, b) => b.score - a.score` sorts by:
descending score. -/
def scoreGe (a b : SearchResult) : Prop := b.score ≤ a.score

instance : DecidableRel scoreGe :=
  fun a b => inferInstanceAs (Decidable (b.score ≤ a.score))

instance : IsTotal SearchResult scoreGe :=
  ⟨fun a b => le_total b.score a.score⟩

instance : IsTrans SearchResult scoreGe :=
  ⟨fun _ _ _ hab hbc => le_trans hbc hab⟩

/-- `scored.sort((a, b) => b.score - a.score)`: ECMAScript `Array.prototype.sort`
is a stable sort, so it is modelled by the stable `insertionSort` under
`scoreGe` (all stable sorts for one comparator agree). -/
def sortByScoreDesc (l : List SearchResult) : List SearchResult :=
  l.insertionSort scoreGe

/-- The scoring loop of `search`: every cached entry with nonzero stored norm
contributes `dot(query, record) / (queryNorm * norm)`; zero-norm entries are
skipped. -/
def scoredEntries (queryVector : List ℚ) (queryNorm : ℚ)
    (embeddings : List CachedEmbedding) : List SearchResult :=
  embeddings.filterMap (fun entry =>
    if entry.norm = 0 then none
    else some ⟨entry.record,
      dotProduct queryVector entry.record.vector / (queryNorm * entry.norm)⟩)

/-- `search` (`lib/indexStore.ts`): validates the query (non-empty, matching
the first cached entry's dimension, nonzero norm — in source order, with the
empty-cache early return between the first and second check), scores, sorts
descending and truncates to `max 0 topK`. -/
def search (env : Env) (queryVector : List ℚ) (topK : Int) (w : World) :
    Except IndexError (List SearchResult) × World :=
  match ensureIndexLoaded env w with
  | (.error e, w1) => (.error e, w1)
  | (.ok _, w1) =>
    match w1.cache with
    | none => (.error (.cacheNotInitialized "search"), w1)
    | some c =>
      if queryVector.length = 0 then (.error .invalidQueryVector, w1)
      else
        match c.embeddings with
        | [] => (.ok [], w1)
        | e0 :: _ =>
          let dim := e0.record.vector.length
          if queryVector.length ≠ dim then
            (.error (.dimensionMismatch queryVector.length dim), w1)
          else
            let queryNorm := computeNorm env queryVector
            if queryNorm = 0 then (.error .zeroNormQuery, w1)
            else
              let scored := scoredEntries queryVector queryNorm c.embeddings
              let limited := (sortByScoreDesc scored).take (max 0 topK).toNat
              (.ok limited, w1)

/-- Batch/retry tuning from `lib/embeddings.ts`: `MAX_BATCH_SIZE = 128`. -/
def MAX_BATCH_SIZE : Nat := 128

/-- `MAX_RETRIES = 3` from `lib/embeddings.ts`. -/
def MAX_RETRIES : Nat := 3

/-- `RETRY_BASE_DELAY_MS = 200` from `lib/embeddings.ts`. -/
def RETRY_BASE_DELAY_MS : Nat := 200

/-- `EMBEDDING_MODEL = "text-embedding-3-small"` from `lib/embeddings.ts`. -/
def EMBEDDING_MODEL : String := "text-embedding-3-small"

/-- A caught JavaScript error as `withRetries` inspects it: a numeric
`status` (or `code`) when one is present, whether `cause.code` is
`"ETIMEDOUT"`, and the message. -/
structure JsError where
  status : Option Int
  causeTimedOut : Bool
  message : String
deriving DecidableEq, Repr

/-- The `isRetryable` classification of `withRetries` (`lib/embeddings.ts`):
status 429, any 5xx status, or a connect timeout. -/
def isRetryable (e : JsError) : Bool :=
  e.status == some 429 ||
    (match e.status with
     | some s => decide (500 ≤ s) && decide (s < 600)
     | none => false) ||
    e.causeTimedOut

/-- The failures `lib/embeddings.ts` can throw (each constructor stands for
one `throw new Error(...)` site, carrying the data interpolated into the
message; `retriesExhausted` is the wrapper error of `withRetries` reporting
the total attempt count). -/
inductive EmbedError where
  | emptyTexts : EmbedError
  | emptyTextAt : Nat → EmbedError
  | emptyInputs : EmbedError
  | retriesExhausted : String → Nat → Bool → String → EmbedError
  | finalLengthMismatch : Nat → Nat → EmbedError
deriving DecidableEq, Repr

/-- The total attempt count a `retriesExhausted` error reports. -/
def EmbedError.attempts : EmbedError → Nat
  | .retriesExhausted _ n _ _ => n
  | _ => 0

/-- The `while (true)` loop of `withRetries` (`lib/embeddings.ts`), entered
with the current `attempt` counter.  `fn attempt` is the body's outcome on
the given (0-based) attempt; the second component collects the backoff
delays (`RETRY_BASE_DELAY_MS * 2 ^ (attempt - 1)` ms) slept before each
retry.  The loop terminates because a failed attempt either stops
(non-retryable, or `attempt > MAX_RETRIES` after the increment) or retries
with a strictly larger counter. -/
def withRetriesGo (fn : Nat → Except JsError α) (operationName : String)
    (attempt : Nat) : Except EmbedError α × List Nat :=
  match fn attempt with
  | .ok result => (.ok result, [])
  | .error err =>
    let attempt1 := attempt + 1
    if h : isRetryable err = false ∨ attempt1 > MAX_RETRIES then
      (.error (.retriesExhausted operationName attempt1 (isRetryable err) err.message), [])
    else
      let delay := RETRY_BASE_DELAY_MS * 2 ^ (attempt1 - 1)
      let res := withRetriesGo fn operationName attempt1
      (res.1, delay :: res.2)
termination_by MAX_RETRIES + 1 - attempt
decreasing_by
  rw [not_or] at h
  omega

/-- `withRetries` (`lib/embeddings.ts`): the loop started at `attempt = 0`. -/
def withRetries (fn : Nat → Except JsError α) (operationName : String) :
    Except EmbedError α × List Nat :=
  withRetriesGo fn operationName 0

/-- One OpenAI embeddings response as the wrapper sees it: either a data
array whose items may or may not carry an embedding array, or an HTTP-like
failure. -/
inductive ProviderResp where
  | success : List (Option (List ℚ)) → ProviderResp
  | failure : Option Int → Bool → String → ProviderResp

/-- A provider stub: the response to the given inputs on the given (0-based)
attempt. -/
def ProviderFun : Type := Nat → List String → ProviderResp

/-- The `response.data.map((item, idx) => ...)` loop of
`callOpenAIEmbeddings`: fails at the first item with a missing embedding
array. -/
def extractEmbeddings : Nat → List (Option (List ℚ)) → Except JsError (List (List ℚ))
  | _, [] => .ok []
  | idx, none :: _ =>
    .error ⟨none, false,
      "Embedding response missing embedding array for index " ++ toString idx⟩
  | idx, some v :: rest => do
    let tail ← extractEmbeddings (idx + 1) rest
    pure (v :: tail)

/-- The body of one `callOpenAIEmbeddings` attempt: surface the HTTP failure,
or validate the response (exactly one vector per input, each an array).
Validation failures are thrown as plain errors — no status, no cause — so
they are non-retryable. -/
def attemptCall (resp : ProviderResp) (expectedCount : Nat) : Except JsError (List (List ℚ)) :=
  match resp with
  | .failure status timedOut msg => .error ⟨status, timedOut, msg⟩
  | .success data =>
    if data.length ≠ expectedCount then
      .error ⟨none, false,
        "Embedding response length mismatch. Expected=" ++ toString expectedCount ++
          " Actual=" ++ toString data.length ++ "."⟩
    else extractEmbeddings 0 data

/-- `callOpenAIEmbeddings` (`lib/embeddings.ts`): rejects empty input, then
wraps one provider call in the retry policy.  Returns the outcome plus the
backoff delays slept. -/
def callOpenAIEmbeddings (provider : ProviderFun) (inputs : List String) :
    Except EmbedError (List (List ℚ)) × List Nat :=
  if inputs.length = 0 then (.error .emptyInputs, [])
  else
    withRetries (fun attempt => attemptCall (provider attempt inputs) inputs.length)
      ("embedBatch(model=" ++ EMBEDDING_MODEL ++ ", count=" ++ toString inputs.length ++ ")")

/-- The normalize-and-validate `texts.map((t, idx) => ...)` loop of
`embedBatch`, carrying the current index: trims each text and fails at the
first one that trims to empty, naming its index. -/
def normalizeTextsFrom (idx : Nat) : List String → Except EmbedError (List String)
  | [] => .ok []
  | t :: ts =>
    let trimmed := jsTrim t
    if trimmed = "" then .error (.emptyTextAt idx)
    else do
      let rest ← normalizeTextsFrom (idx + 1) ts
      pure (trimmed :: rest)

/-- The normalization loop of `embedBatch`, started at index 0. -/
def normalizeTexts (texts : List String) : Except EmbedError (List String) :=
  normalizeTextsFrom 0 texts

/-- The `for (let i = 0; i < normalized.length; i += MAX_BATCH_SIZE)`
partition of `embedBatch`: consecutive chunks of at most `MAX_BATCH_SIZE`
texts, in order. -/
def chunksOfBatch : List String → List (List String)
  | [] => []
  | t :: ts =>
    ((t :: ts).take MAX_BATCH_SIZE) :: chunksOfBatch ((t :: ts).drop MAX_BATCH_SIZE)
termination_by l => l.length
decreasing_by
  simp only [List.length_drop, List.length_cons, MAX_BATCH_SIZE]
  omega

/-- The chunked dispatch loop of `embedBatch`: one provider call per chunk,
in order, concatenating results and stopping at the first failing chunk.
Also returns the delays slept and the chunk inputs issued, in order. -/
def embedChunks (provider : ProviderFun) :
    List (List String) → Except EmbedError (List (List ℚ)) × List Nat × List (List String)
  | [] => (.ok [], [], [])
  | chunk :: rest =>
    match callOpenAIEmbeddings provider chunk with
    | (.error e, delays) => (.error e, delays, [chunk])
    | (.ok vectors, delays) =>
      match embedChunks provider rest with
      | (.error e, delays2, calls) => (.error e, delays ++ delays2, chunk :: calls)
      | (.ok more, delays2, calls) => (.ok (vectors ++ more), delays ++ delays2, chunk :: calls)

/-- `embedBatch` (`lib/embeddings.ts`): rejects an empty list, trims and
validates every text (failing at the first empty one), then issues one
provider call when `normalized.length ≤ MAX_BATCH_SIZE` and otherwise one
call per consecutive chunk, concatenating results and checking the final
output length.  Besides the outcome it returns the backoff delays slept and
the input lists issued to the provider, in order. -/
def embedBatch (provider : ProviderFun) (texts : List String) :
    Except EmbedError (List (List ℚ)) × List Nat × List (List String) :=
  if texts.length = 0 then (.error .emptyTexts, [], [])
  else
    match normalizeTexts texts with
    | .error e => (.error e, [], [])
    | .ok normalized =>
      if normalized.length ≤ MAX_BATCH_SIZE then
        match callOpenAIEmbeddings provider normalized with
        | (res, delays) => (res, delays, [normalized])
      else
        match embedChunks provider (chunksOfBatch normalized) with
        | (.error e, delays, calls) => (.error e, delays, calls)
        | (.ok results, delays, calls) =>
          if results.length ≠ normalized.length then
            (.error (.finalLengthMismatch normalized.length results.length), delays, calls)
          else (.ok results, delays, calls)

/-! ### Specification lemmas for the zod parsers -/

theorem parseNonEmptyString_length {v : Json} {s : String}
    (h : parseNonEmptyString v = some s) : s.length ≥ 1 := by
  cases v <;> simp only [parseNonEmptyString] at h <;> try exact Option.noConfusion h
  split at h
  · cases h; assumption
  · exact Option.noConfusion h

theorem parseIsoString_iso {v : Json} {s : String}
    (h : parseIsoString v = some s) : isIsoDatetime s = true := by
  cases v <;> simp only [parseIsoString] at h <;> try exact Option.noConfusion h
  split at h
  · cases h; assumption
  · exact Option.noConfusion h

theorem parseOptField_nonEmpty {o : Option Json} {mo : Option String}
    (h : parseOptField parseNonEmptyString o = some mo) :
    ∀ s, mo = some s → s.length ≥ 1 := by
  intro s hs
  cases o with
  | none =>
    simp only [parseOptField] at h
    cases h; exact Option.noConfusion hs
  | some v =>
    simp only [parseOptField, Option.map_eq_some'] at h
    obtain ⟨t, ht, rfl⟩ := h
    cases hs
    exact parseNonEmptyString_length ht

theorem parseEmbeddingMeta_wf {v : Json} {m : EmbeddingMeta}
    (h : parseEmbeddingMeta v = some m) :
    (∀ s, m.model = some s → s.length ≥ 1) ∧
      (∀ s, m.sourceRef = some s → s.length ≥ 1) := by
  cases v <;> simp only [parseEmbeddingMeta] at h <;> try exact Option.noConfusion h
  simp only [Option.bind_eq_bind, Option.bind_eq_some, Option.pure_def,
    Option.some.injEq] at h
  obtain ⟨model, hmodel, nodeType, hnode, sourceRef, hsrc, hm⟩ := h
  subst hm
  exact ⟨parseOptField_nonEmpty hmodel, parseOptField_nonEmpty hsrc⟩

/-- Any record produced by `zEmbeddingRecord.safeParse` satisfies the
structural constraints of the schema. -/
theorem zEmbeddingRecordParse_wellFormed {j : Json} {r : EmbeddingRecord}
    (h : zEmbeddingRecordParse j = some r) : WellFormedRecord r := by
  cases j <;> simp only [zEmbeddingRecordParse] at h <;> try exact Option.noConfusion h
  case obj kvs =>
    simp only [Option.bind_eq_bind, Option.bind_eq_some, Option.pure_def] at h
    obtain ⟨id, hid, sv, hsv, st, hst, sid, hsid, vec, hvec, h⟩ := h
    split at h
    case isTrue hvlen =>
      simp only [Option.bind_eq_some, Option.some.injEq] at h
      obtain ⟨ca, hca, meta, hmeta, hr⟩ := h
      subst hr
      obtain ⟨v1, _, hid⟩ := hid
      obtain ⟨v2, _, hsid⟩ := hsid
      obtain ⟨v3, _, hca⟩ := hca
      refine ⟨parseNonEmptyString_length hid, parseNonEmptyString_length hsid, hvlen,
        parseIsoString_iso hca, ?_⟩
      cases meta with
      | none => trivial
      | some m =>
        cases hmo : (Json.obj kvs).lookup "meta" with
        | none =>
          rw [hmo] at hmeta
          simp only [parseOptField] at hmeta
          cases hmeta
        | some v =>
          rw [hmo] at hmeta
          simp only [parseOptField, Option.map_eq_some'] at hmeta
          obtain ⟨m2, hm2, hm2e⟩ := hmeta
          cases hm2e
          exact parseEmbeddingMeta_wf hm2
    case isFalse => exact Option.noConfusion h

/-! ### Round trip: parsing the canonical runtime object of a record -/

theorem parseSourceType_encode (st : EmbeddingSourceType) :
    parseSourceType (Json.str (encodeSourceType st)) = some st := by
  cases st <;> rfl

theorem parseNodeType_encode (t : KnowledgeNodeType) :
    parseNodeType (Json.str (encodeNodeType t)) = some t := by
  cases t <;> rfl

theorem parseNumberArray_encode (vec : List ℚ) :
    parseNumberArray (Json.arr (vec.map Json.num)) = some vec := by
  induction vec with
  | nil => rfl
  | cons q qs ih =>
    have ih2 : (qs.map Json.num).mapM
        (fun v => match v with | Json.num q => some q | _ => none) = some qs := ih
    simp only [parseNumberArray, List.map_cons, List.mapM_cons, ih2,
      Option.bind_eq_bind, Option.some_bind]
    rfl

theorem parseEmbeddingMeta_encode (m : EmbeddingMeta)
    (h1 : ∀ s, m.model = some s → s.length ≥ 1)
    (h2 : ∀ s, m.sourceRef = some s → s.length ≥ 1) :
    parseEmbeddingMeta (encodeEmbeddingMeta m) = some m := by
  obtain ⟨mo, nt, sr⟩ := m
  simp only at h1 h2
  cases mo <;> cases nt <;> cases sr <;>
    first
    | rfl
    | simp [encodeEmbeddingMeta, parseEmbeddingMeta, Json.lookup, List.lookup,
        parseOptField, parseNonEmptyString, parseNodeType_encode, h1 _ rfl, h2 _ rfl]
    | simp [encodeEmbeddingMeta, parseEmbeddingMeta, Json.lookup, List.lookup,
        parseOptField, parseNonEmptyString, parseNodeType_encode, h1 _ rfl]
    | simp [encodeEmbeddingMeta, parseEmbeddingMeta, Json.lookup, List.lookup,
        parseOptField, parseNonEmptyString, parseNodeType_encode, h2 _ rfl]
    | simp [encodeEmbeddingMeta, parseEmbeddingMeta, Json.lookup, List.lookup,
        parseOptField, parseNonEmptyString, parseNodeType_encode]

/-- Parsing the canonical runtime object of a well-formed record gives the
record back (zod strips unknown keys and fills defaults, so the parsed output
of `safeParse` round-trips exactly). -/
theorem zEmbeddingRecordParse_encode (r : EmbeddingRecord) (h : WellFormedRecord r) :
    zEmbeddingRecordParse (encodeEmbeddingRecord r) = some r := by
  obtain ⟨hid, hsid, hvec, hdate, hmeta⟩ := h
  obtain ⟨id, sv, st, sid, vec, ca, meta⟩ := r
  simp only at hid hsid hvec hdate hmeta
  cases meta with
  | none =>
    simp [encodeEmbeddingRecord, zEmbeddingRecordParse, Json.lookup, List.lookup,
      parseNonEmptyString, parseSchemaVersionField, parseNonnegInt,
      parseSourceType_encode, parseNumberArray_encode, parseIsoString,
      parseOptField, hid, hsid, hvec, hdate, Rat.den_natCast, Rat.num_natCast]
  | some m =>
    obtain ⟨hm1, hm2⟩ := hmeta
    simp [encodeEmbeddingRecord, zEmbeddingRecordParse, Json.lookup, List.lookup,
      parseNonEmptyString, parseSchemaVersionField, parseNonnegInt,
      parseSourceType_encode, parseNumberArray_encode, parseIsoString,
      parseOptField, hid, hsid, hvec, hdate, Rat.den_natCast, Rat.num_natCast,
      parseEmbeddingMeta_encode ⟨m.model, m.nodeType, m.sourceRef⟩ hm1 hm2]

/-! ### Behavior of the index-store operations -/

theorem validateRecords_ok {rs : List Json} {P : List EmbeddingRecord}
    (h : rs.mapM zEmbeddingRecordParse = some P) : validateRecords rs = .ok P := by
  induction rs generalizing P with
  | nil =>
    simp only [List.mapM_nil, Option.pure_def, Option.some.injEq] at h
    subst h; rfl
  | cons r rs ih =>
    simp only [List.mapM_cons, Option.bind_eq_bind, Option.bind_eq_some,
      Option.pure_def, Option.some.injEq] at h
    obtain ⟨p, hp, rest, hrest, hP⟩ := h
    subst hP
    simp only [validateRecords, hp, ih hrest]
    rfl

theorem validateRecords_error {rs : List Json}
    (h : ∃ r ∈ rs, zEmbeddingRecordParse r = none) :
    validateRecords rs = .error (.invalidRecordValue "saveIndex") := by
  induction rs with
  | nil => simp at h
  | cons r rs ih =>
    obtain ⟨x, hx, hxn⟩ := h
    cases hr : zEmbeddingRecordParse r with
    | none => simp only [validateRecords, hr]
    | some p =>
      have hxrs : x ∈ rs := by
        rcases List.mem_cons.mp hx with h1 | h1
        · rw [h1, hr] at hxn; exact Option.noConfusion hxn
        · exact h1
      simp only [validateRecords, hr, ih ⟨x, hxrs, hxn⟩]
      rfl

theorem mapM_parse_wellFormed {rs : List Json} {P : List EmbeddingRecord}
    (h : rs.mapM zEmbeddingRecordParse = some P) : ∀ r ∈ P, WellFormedRecord r := by
  induction rs generalizing P with
  | nil =>
    simp only [List.mapM_nil, Option.pure_def, Option.some.injEq] at h
    subst h; intro r hr; simp at hr
  | cons x xs ih =>
    simp only [List.mapM_cons, Option.bind_eq_bind, Option.bind_eq_some,
      Option.pure_def, Option.some.injEq] at h
    obtain ⟨p, hp, rest, hrest, hP⟩ := h
    subst hP
    intro r hr
    rcases List.mem_cons.mp hr with hr | hr
    · subst hr; exact zEmbeddingRecordParse_wellFormed hp
    · exact ih hrest r hr

theorem mapM_encode_parse {P : List EmbeddingRecord}
    (h : ∀ r ∈ P, WellFormedRecord r) :
    (P.map encodeEmbeddingRecord).mapM zEmbeddingRecordParse = some P := by
  induction P with
  | nil => rfl
  | cons r rs ih =>
    simp only [List.map_cons, List.mapM_cons, Option.bind_eq_bind,
      zEmbeddingRecordParse_encode r (h r (List.mem_cons_self r rs)), Option.some_bind,
      ih (fun x hx => h x (List.mem_cons_of_mem r hx)), Option.pure_def]

theorem buildCachedEmbeddings_ok (env : Env) {rs : List EmbeddingRecord}
    (h : ∀ r ∈ rs, r.vector.length ≠ 0) :
    buildCachedEmbeddings env rs =
      .ok (rs.map (fun r => ⟨r, computeNorm env r.vector⟩)) := by
  induction rs with
  | nil => rfl
  | cons r rs ih =>
    simp only [buildCachedEmbeddings]
    rw [if_neg (h r (List.mem_cons_self r rs)),
      ih (fun x hx => h x (List.mem_cons_of_mem r hx))]
    rfl

theorem ensureIndexLoaded_of_cache {env : Env} {w : World} {c : IndexCache}
    (h : w.cache = some c) : ensureIndexLoaded env w = (.ok (), w) := by
  simp only [ensureIndexLoaded, h]


/-- The records currently held by the in-memory cache (empty when the cache
is not populated). -/
def World.cacheRecords (w : World) : List EmbeddingRecord :=
  match w.cache with
  | none => []
  | some c => c.embeddings.map (fun e => e.record)

/-- The cached embeddings (with norms) currently held by the in-memory cache. -/
def World.cacheEmbeddings (w : World) : List CachedEmbedding :=
  match w.cache with
  | none => []
  | some c => c.embeddings

/-- `saveIndex` with an invalid record: fails with the validation error
before any write — Drive content, write counter and cache are untouched. -/
theorem saveIndex_invalid {env : Env} {w : World} {c : IndexCache} {rs : List Json}
    (hc : w.cache = some c) (hbad : ∃ r ∈ rs, zEmbeddingRecordParse r = none) :
    (saveIndex env rs w).1 = .error (.invalidRecordValue "saveIndex") ∧
      (saveIndex env rs w).2.cache = w.cache ∧
      (saveIndex env rs w).2.drive = w.drive ∧
      (saveIndex env rs w).2.saveCount = w.saveCount := by
  rcases Decidable.em (c.fileMeta.createdAt = "") with hcr | hcr
  · refine ⟨?_, ?_, ?_, ?_⟩ <;>
      simp only [saveIndex, ensureIndexLoaded_of_cache hc, hc, if_pos hcr,
        validateRecords_error hbad] <;> simp [hc]
  · refine ⟨?_, ?_, ?_, ?_⟩ <;>
      simp only [saveIndex, ensureIndexLoaded_of_cache hc, hc, if_neg hcr,
        validateRecords_error hbad] <;> simp [hc]

/-- `saveIndex` with valid records but a failing Drive write: the error
propagates and the cache and Drive content stay as they were. -/
theorem saveIndex_writeFail {env : Env} {w : World} {c : IndexCache} {rs : List Json}
    {P : List EmbeddingRecord}
    (hc : w.cache = some c) (hp : rs.mapM zEmbeddingRecordParse = some P)
    (hsave : env.saveOk w.saveCount = false) :
    (saveIndex env rs w).1 = .error .driveSaveFailed ∧
      (saveIndex env rs w).2.cache = w.cache ∧
      (saveIndex env rs w).2.drive = w.drive ∧
      (saveIndex env rs w).2.saveCount = w.saveCount + 1 := by
  rcases Decidable.em (c.fileMeta.createdAt = "") with hcr | hcr
  · refine ⟨?_, ?_, ?_, ?_⟩ <;>
      simp only [saveIndex, ensureIndexLoaded_of_cache hc, hc, if_pos hcr,
        validateRecords_ok hp, saveIndexFileToDrive, saveJson, hsave,
        Bool.false_eq_true, if_false] <;> simp [hc]
  · refine ⟨?_, ?_, ?_, ?_⟩ <;>
      simp only [saveIndex, ensureIndexLoaded_of_cache hc, hc, if_neg hcr,
        validateRecords_ok hp, saveIndexFileToDrive, saveJson, hsave,
        Bool.false_eq_true, if_false] <;> simp [hc]

/-- `saveIndex` with valid records and a succeeding Drive write: only then is
the cache swapped, to exactly the validated records with freshly computed
norms. -/
theorem saveIndex_ok {env : Env} {w : World} {c : IndexCache} {rs : List Json}
    {P : List EmbeddingRecord}
    (hc : w.cache = some c) (hp : rs.mapM zEmbeddingRecordParse = some P)
    (hsave : env.saveOk w.saveCount = true) :
    (saveIndex env rs w).1 = .ok () ∧
      (saveIndex env rs w).2.cacheEmbeddings =
        P.map (fun r => ⟨r, computeNorm env r.vector⟩) ∧
      (saveIndex env rs w).2.cache.isSome = true ∧
      (saveIndex env rs w).2.saveCount = w.saveCount + 1 := by
  have hwf := mapM_parse_wellFormed hp
  have hvec : ∀ r ∈ P, r.vector.length ≠ 0 := fun r hr =>
    Nat.one_le_iff_ne_zero.mp (hwf r hr).2.2.1
  rcases Decidable.em (c.fileMeta.createdAt = "") with hcr | hcr
  · refine ⟨?_, ?_, ?_, ?_⟩ <;>
      simp only [saveIndex, ensureIndexLoaded_of_cache hc, hc, if_pos hcr,
        validateRecords_ok hp, saveIndexFileToDrive, saveJson, hsave,
        eq_self_iff_true, if_true, buildCachedEmbeddings_ok env hvec,
        World.cacheEmbeddings, Option.isSome_some] <;> simp [hc]
  · refine ⟨?_, ?_, ?_, ?_⟩ <;>
      simp only [saveIndex, ensureIndexLoaded_of_cache hc, hc, if_neg hcr,
        validateRecords_ok hp, saveIndexFileToDrive, saveJson, hsave,
        eq_self_iff_true, if_true, buildCachedEmbeddings_ok env hvec,
        World.cacheEmbeddings, Option.isSome_some] <;> simp [hc]

/-- `addEmbedding` on a loaded cache: validate, upsert into the cached
records, and delegate to `saveIndex` with the in-memory record objects. -/
theorem addEmbedding_of_cache {env : Env} {w : World} {c : IndexCache} {raw : Json}
    (hc : w.cache = some c) :
    addEmbedding env raw w =
      match zEmbeddingRecordParse raw with
      | none => (.error (.invalidRecordValue "addEmbedding"), w)
      | some v =>
        saveIndex env
          ((upsertList v (c.embeddings.map (fun e => e.record))).map
            encodeEmbeddingRecord) w := by
  simp only [addEmbedding, ensureIndexLoaded_of_cache hc, hc]

/-- No two records share an `id`, and no two share the `(sourceType,
sourceId)` pair (the §3 identity invariant of the spec). -/
def NoDupKeys (rs : List EmbeddingRecord) : Prop :=
  rs.Pairwise (fun a b =>
    a.id ≠ b.id ∧ ¬(a.sourceType = b.sourceType ∧ a.sourceId = b.sourceId))

theorem mem_upsertList {v x : EmbeddingRecord} {rs : List EmbeddingRecord}
    (h : x ∈ upsertList v rs) : x = v ∨ x ∈ rs := by
  induction rs with
  | nil => simpa [upsertList] using h
  | cons r rs ih =>
    simp only [upsertList] at h
    split at h
    · rcases List.mem_cons.mp h with h | h
      · exact .inl h
      · exact .inr (List.mem_cons_of_mem r h)
    · rcases List.mem_cons.mp h with h | h
      · exact .inr (h ▸ List.mem_cons_self r rs)
      · rcases ih h with h | h
        · exact .inl h
        · exact .inr (List.mem_cons_of_mem r h)

/-- When some cached record matches the incoming one by `id` or by source
pair, `addEmbedding`'s loop replaces in place: the record count is
unchanged (no duplicate is appended). -/
theorem length_upsertList_of_match {v : EmbeddingRecord} {rs : List EmbeddingRecord}
    (h : ∃ r ∈ rs, r.id = v.id ∨ (r.sourceType = v.sourceType ∧ r.sourceId = v.sourceId)) :
    (upsertList v rs).length = rs.length := by
  induction rs with
  | nil => simp at h
  | cons r rs ih =>
    simp only [upsertList]
    split
    · simp
    · rename_i hno
      obtain ⟨x, hx, hxm⟩ := h
      have hxrs : x ∈ rs := by
        rcases List.mem_cons.mp hx with h1 | h1
        · exact absurd (h1 ▸ hxm) hno
        · exact h1
      simp [ih ⟨x, hxrs, hxm⟩]

/-- When no cached record matches, the record is appended. -/
theorem length_upsertList_of_no_match {v : EmbeddingRecord} {rs : List EmbeddingRecord}
    (h : ∀ r ∈ rs, ¬(r.id = v.id ∨ (r.sourceType = v.sourceType ∧ r.sourceId = v.sourceId))) :
    (upsertList v rs).length = rs.length + 1 := by
  induction rs with
  | nil => rfl
  | cons r rs ih =>
    simp only [upsertList]
    split
    · exact absurd (by assumption) (h r (List.mem_cons_self r rs))
    · simp [ih (fun x hx => h x (List.mem_cons_of_mem r hx))]

/-- The upsert loop preserves key uniqueness whenever the incoming record's
two identity keys select the same cached records (for each cached record, an
`id` match holds exactly when a source-pair match holds). -/
theorem noDupKeys_upsertList {v : EmbeddingRecord} {rs : List EmbeddingRecord}
    (hnd : NoDupKeys rs)
    (hcoh : ∀ r ∈ rs, (r.id = v.id ↔ (r.sourceType = v.sourceType ∧ r.sourceId = v.sourceId))) :
    NoDupKeys (upsertList v rs) := by
  induction rs with
  | nil => simp [upsertList, NoDupKeys]
  | cons r rs ih =>
    rw [NoDupKeys, List.pairwise_cons] at hnd
    obtain ⟨hr, hnd⟩ := hnd
    simp only [upsertList]
    split
    · rename_i hm
      have hcohr := hcoh r (List.mem_cons_self r rs)
      have hrid : r.id = v.id ∧ (r.sourceType = v.sourceType ∧ r.sourceId = v.sourceId) := by
        rcases hm with h1 | h1
        · exact ⟨h1, hcohr.mp h1⟩
        · exact ⟨hcohr.mpr h1, h1⟩
      rw [NoDupKeys, List.pairwise_cons]
      refine ⟨fun b hb => ?_, hnd⟩
      have hrb := hr b hb
      constructor
      · intro hvb
        exact hrb.1 (hrid.1.trans hvb)
      · intro hvb
        exact hrb.2 ⟨hrid.2.1.trans hvb.1, hrid.2.2.trans hvb.2⟩
    · rename_i hno
      rw [NoDupKeys, List.pairwise_cons]
      constructor
      · intro b hb
        rcases mem_upsertList hb with rfl | hb2
        · exact ⟨fun h1 => hno (Or.inl h1), fun h1 => hno (Or.inr h1)⟩
        · exact hr b hb2
      · exact ih hnd (fun x hx => hcoh x (List.mem_cons_of_mem r hx))

/-! ### Stability and sortedness of the score-descending sort -/

theorem filter_orderedInsert_score (a : SearchResult) (l : List SearchResult) (s : ℚ) :
    (l.orderedInsert scoreGe a).filter (fun x => decide (x.score = s)) =
      if a.score = s then a :: l.filter (fun x => decide (x.score = s))
      else l.filter (fun x => decide (x.score = s)) := by
  induction l with
  | nil =>
    by_cases has : a.score = s <;> simp [List.orderedInsert, List.filter, has]
  | cons b l ih =>
    by_cases hab : scoreGe a b
    · rw [List.orderedInsert, if_pos hab]
      by_cases has : a.score = s <;> simp [List.filter_cons, has]
    · rw [List.orderedInsert, if_neg hab]
      have hlt : a.score < b.score := lt_of_not_le hab
      by_cases hbs : b.score = s
      · have has : ¬a.score = s := fun ha => absurd (le_of_eq (hbs.trans ha.symm)) hab
        simp [List.filter_cons, hbs, has, ih]
      · by_cases has : a.score = s <;> simp [List.filter_cons, hbs, has, ih]

/-- Stability of the modelled sort: for every score value, the entries
carrying that score appear in the sorted output in exactly their original
relative order. -/
theorem filter_sortByScoreDesc (l : List SearchResult) (s : ℚ) :
    (sortByScoreDesc l).filter (fun x => decide (x.score = s)) =
      l.filter (fun x => decide (x.score = s)) := by
  induction l with
  | nil => rfl
  | cons a l ih =>
    simp only [sortByScoreDesc, List.insertionSort] at ih ⊢
    rw [filter_orderedInsert_score]
    by_cases has : a.score = s <;> simp [List.filter_cons, has, ih]

theorem sorted_sortByScoreDesc (l : List SearchResult) :
    List.Sorted scoreGe (sortByScoreDesc l) :=
  List.sorted_insertionSort scoreGe l

theorem perm_sortByScoreDesc (l : List SearchResult) :
    (sortByScoreDesc l).Perm l :=
  List.perm_insertionSort scoreGe l

/-! ### Concrete fixtures for witnesses and counterexamples -/

/-- A fixed ISO timestamp used by the concrete fixtures. -/
def tIso : String := "2024-01-01T00:00:00Z"

/-- A concrete environment: constant clock, always-succeeding Drive writes,
and the identity function as the (arbitrary) `Math.sqrt` oracle. -/
def tEnv : Env := ⟨fun _ => tIso, fun _ => true, fun q => q⟩

/-- Like `tEnv` but every Drive write fails. -/
def tEnvFail : Env := ⟨fun _ => tIso, fun _ => false, fun q => q⟩

/-- Record A: id `"idA"`, source `(knowledgeNode, "srcA")`, vector `[1, 0]`. -/
def tRecA : EmbeddingRecord :=
  ⟨"idA", 1, .knowledgeNode, "srcA", [1, 0], tIso, none⟩

/-- Record B: id `"idB"`, source `(knowledgeNode, "srcB")`, vector `[0, 1]`. -/
def tRecB : EmbeddingRecord :=
  ⟨"idB", 1, .knowledgeNode, "srcB", [0, 1], tIso, none⟩

/-- Record C: carries B's id but A's source pair. -/
def tRecC : EmbeddingRecord :=
  ⟨"idB", 1, .knowledgeNode, "srcA", [1, 1], tIso, none⟩

/-- A loaded, empty cache. -/
def tCacheEmpty : IndexCache := ⟨⟨1, tIso, tIso⟩, []⟩

/-- A loaded cache holding record A (norm precomputed under `tEnv`). -/
def tCacheA : IndexCache := ⟨⟨1, tIso, tIso⟩, [⟨tRecA, 1⟩]⟩

/-- A loaded cache holding records A and B. -/
def tCacheAB : IndexCache := ⟨⟨1, tIso, tIso⟩, [⟨tRecA, 1⟩, ⟨tRecB, 1⟩]⟩

/-- A world whose index is loaded and empty. -/
def tW0 : World :=
  ⟨some (encodeEmbeddingIndexFile ⟨1, tIso, tIso, []⟩), some tCacheEmpty, 0, 0⟩

/-- A world whose loaded cache holds record A. -/
def tWA : World :=
  ⟨some (encodeEmbeddingIndexFile ⟨1, tIso, tIso, [tRecA]⟩), some tCacheA, 0, 0⟩

/-- A world whose loaded cache holds records A and B. -/
def tWAB : World :=
  ⟨some (encodeEmbeddingIndexFile ⟨1, tIso, tIso, [tRecA, tRecB]⟩), some tCacheAB, 0, 0⟩

theorem cacheRecords_eq_map (w : World) :
    w.cacheRecords = w.cacheEmbeddings.map (fun e => e.record) := by
  cases h : w.cache <;> simp [World.cacheRecords, World.cacheEmbeddings, h]

/-! ### The claims -/

/-- C1.  For every loaded cache and every query of the index dimension with
nonzero norm, `search` scores exactly the cached entries with nonzero stored
norm — score `dot(query, record) / (queryNorm * norm)`, as `scoredEntries`
spells out — sorts them descending by score with ties in cache order (the
stable sort `sortByScoreDesc`; sortedness and the tie-stability filter
property are asserted), and returns at most `max 0 topK` of them; an empty
cache yields an empty result with no error. -/
theorem searchSpec (env : Env) (w : World) (c : IndexCache) (q : List ℚ) (k : Int)
    (hc : w.cache = some c) (hq : q ≠ []) :
    (c.embeddings = [] → search env q k w = (.ok [], w)) ∧
    (computeNorm env q ≠ 0 →
      (∀ e ∈ c.embeddings, e.record.vector.length = q.length) →
      search env q k w =
        (.ok ((sortByScoreDesc (scoredEntries q (computeNorm env q) c.embeddings)).take
          (max 0 k).toNat), w) ∧
      List.Sorted scoreGe
        (sortByScoreDesc (scoredEntries q (computeNorm env q) c.embeddings)) ∧
      (∀ s : ℚ,
        (sortByScoreDesc (scoredEntries q (computeNorm env q) c.embeddings)).filter
            (fun x => decide (x.score = s)) =
          (scoredEntries q (computeNorm env q) c.embeddings).filter
            (fun x => decide (x.score = s))) ∧
      ((sortByScoreDesc (scoredEntries q (computeNorm env q) c.embeddings)).take
          (max 0 k).toNat).length ≤ (max 0 k).toNat) := by
  have hlen : ¬q.length = 0 := fun h => hq (List.length_eq_zero.mp h)
  constructor
  · intro hemp
    simp only [search, ensureIndexLoaded_of_cache hc, hc, hemp, if_neg hlen]
  · intro hnorm hdim
    cases hemb : c.embeddings with
    | nil =>
      refine ⟨?_, ?_, fun s => ?_, ?_⟩ <;>
        simp [search, ensureIndexLoaded_of_cache hc, hc, hemb, if_neg hlen, hq,
          scoredEntries, sortByScoreDesc, List.insertionSort, List.Sorted]
    | cons e0 rest =>
      have hd0 : e0.record.vector.length = q.length :=
        hdim e0 (hemb ▸ List.mem_cons_self e0 rest)
      have hdm : ¬q.length ≠ e0.record.vector.length := by omega
      refine ⟨?_, sorted_sortByScoreDesc _, fun s => filter_sortByScoreDesc _ s,
        List.length_take_le _ _⟩
      simp only [search, ensureIndexLoaded_of_cache hc, hc, hemb, if_neg hlen,
        if_neg hdm, if_neg hnorm]

/-- Witness for C1: a one-record cache (vector `[1, 0]`, norm 1) searched
with query `[1, 0]` and `topK = 2`. -/
theorem searchSpec_witness :
    search tEnv [1, 0] 2 tWA =
      (.ok ((sortByScoreDesc (scoredEntries [1, 0] (computeNorm tEnv [1, 0])
        tCacheA.embeddings)).take (max 0 (2 : Int)).toNat), tWA) :=
  ((searchSpec tEnv tWA tCacheA [1, 0] 2 rfl (by decide)).2
    (by norm_num [computeNorm, sumOfSquares, tEnv, List.foldl])
    (by decide)).1

/-- C7 (amended).  On a loaded cache, `search` rejects an empty query; on a
non-empty cache it rejects a dimension mismatch against the first cached
entry and a zero-norm query; but on an empty cache the empty-result early
return precedes the dimension and norm checks, so a non-empty zero-norm
query succeeds with an empty result instead of failing. -/
theorem searchValidationSpec (env : Env) (w : World) (c : IndexCache)
    (q : List ℚ) (k : Int) (hc : w.cache = some c) :
    (q = [] → search env q k w = (.error .invalidQueryVector, w)) ∧
    (q ≠ [] → c.embeddings = [] → search env q k w = (.ok [], w)) ∧
    (∀ e0 rest, c.embeddings = e0 :: rest → q ≠ [] →
      q.length ≠ e0.record.vector.length →
      search env q k w =
        (.error (.dimensionMismatch q.length e0.record.vector.length), w)) ∧
    (∀ e0 rest, c.embeddings = e0 :: rest → q ≠ [] →
      q.length = e0.record.vector.length → computeNorm env q = 0 →
      search env q k w = (.error .zeroNormQuery, w)) := by
  refine ⟨?_, ?_, ?_, ?_⟩
  · intro hq
    subst hq
    simp [search, ensureIndexLoaded_of_cache hc, hc]
  · intro hq hemp
    have hlen : ¬q.length = 0 := fun h => hq (List.length_eq_zero.mp h)
    simp only [search, ensureIndexLoaded_of_cache hc, hc, hemp, if_neg hlen]
  · intro e0 rest hemb hq hdm
    have hlen : ¬q.length = 0 := fun h => hq (List.length_eq_zero.mp h)
    simp only [search, ensureIndexLoaded_of_cache hc, hc, hemb, if_neg hlen, if_pos hdm]
  · intro e0 rest hemb hq hde hnorm
    have hlen : ¬q.length = 0 := fun h => hq (List.length_eq_zero.mp h)
    have hdm : ¬q.length ≠ e0.record.vector.length := by omega
    simp only [search, ensureIndexLoaded_of_cache hc, hc, hemb, if_neg hlen,
      if_neg hdm, if_pos hnorm]

/-- Witness for the amended C7: on the one-record cache, the zero query
`[0, 0]` has matching dimension and zero norm, and fails. -/
theorem searchValidationSpec_witness :
    search tEnv [0, 0] 3 tWA = (.error .zeroNormQuery, tWA) :=
  (searchValidationSpec tEnv tWA tCacheA [0, 0] 3 rfl).2.2.2 ⟨tRecA, 1⟩ []
    rfl (by decide) (by decide)
    (by norm_num [computeNorm, sumOfSquares, tEnv, List.foldl])

/-- Counterexample to C7 as stated: on a loaded empty cache, the non-empty
query `[0]` has norm exactly zero, yet `search` returns an empty result
instead of failing with a validation error. -/
theorem searchValidationSpec_cex :
    computeNorm tEnv [(0 : ℚ)] = 0 ∧ ([(0 : ℚ)] ≠ ([] : List ℚ)) ∧
      search tEnv [(0 : ℚ)] 5 tW0 = (.ok [], tW0) :=
  ⟨by norm_num [computeNorm, sumOfSquares, tEnv, List.foldl], by simp, rfl⟩

/-- C2.  `saveIndex` (the spec's `replaceAll`) is all-or-nothing: an invalid
record fails validation before any write (Drive, write counter and cache all
untouched); with valid records a failed Drive write leaves cache and Drive
unchanged; and only after a successful write is the cache replaced to match
the validated records. -/
theorem saveIndexAtomicSpec (env : Env) (w : World) (c : IndexCache) (rs : List Json)
    (hc : w.cache = some c) :
    ((∃ r ∈ rs, zEmbeddingRecordParse r = none) →
      (saveIndex env rs w).1 = .error (.invalidRecordValue "saveIndex") ∧
      (saveIndex env rs w).2.cache = w.cache ∧
      (saveIndex env rs w).2.drive = w.drive ∧
      (saveIndex env rs w).2.saveCount = w.saveCount) ∧
    (∀ P, rs.mapM zEmbeddingRecordParse = some P → env.saveOk w.saveCount = false →
      (saveIndex env rs w).1 = .error .driveSaveFailed ∧
      (saveIndex env rs w).2.cache = w.cache ∧
      (saveIndex env rs w).2.drive = w.drive) ∧
    (∀ P, rs.mapM zEmbeddingRecordParse = some P → env.saveOk w.saveCount = true →
      (saveIndex env rs w).1 = .ok () ∧
      (saveIndex env rs w).2.cacheEmbeddings =
        P.map (fun r => ⟨r, computeNorm env r.vector⟩)) := by
  refine ⟨fun hbad => saveIndex_invalid hc hbad, fun P hp hs => ?_, fun P hp hs => ?_⟩
  · have h := saveIndex_writeFail hc hp hs
    exact ⟨h.1, h.2.1, h.2.2.1⟩
  · have h := saveIndex_ok hc hp hs
    exact ⟨h.1, h.2.1⟩

/-- Witness for C2: an invalid value (`null`) is rejected with the cache
kept; with the always-failing Drive the cache is also kept; with a working
Drive the save succeeds. -/
theorem saveIndexAtomicSpec_witness :
    ((saveIndex tEnv [Json.null] tW0).1 = .error (.invalidRecordValue "saveIndex") ∧
      (saveIndex tEnv [Json.null] tW0).2.cache = tW0.cache) ∧
    ((saveIndex tEnvFail [encodeEmbeddingRecord tRecA] tW0).1 = .error .driveSaveFailed ∧
      (saveIndex tEnvFail [encodeEmbeddingRecord tRecA] tW0).2.cache = tW0.cache) ∧
    (saveIndex tEnv [encodeEmbeddingRecord tRecA] tW0).1 = .ok () := by
  refine ⟨?_, ?_, ?_⟩
  · have h := (saveIndexAtomicSpec tEnv tW0 tCacheEmpty [Json.null] rfl).1
      ⟨Json.null, by simp, rfl⟩
    exact ⟨h.1, h.2.1⟩
  · have h := (saveIndexAtomicSpec tEnvFail tW0 tCacheEmpty
      [encodeEmbeddingRecord tRecA] rfl).2.1 [tRecA] (by decide) rfl
    exact ⟨h.1, h.2.1⟩
  · exact ((saveIndexAtomicSpec tEnv tW0 tCacheEmpty
      [encodeEmbeddingRecord tRecA] rfl).2.2 [tRecA] (by decide) rfl).1

/-- C8.  Round trip: `saveIndex` of well-formed records followed by
`loadIndex` gives back exactly the same records, in the same order, without
touching the state further. -/
theorem saveLoadRoundTrip (env : Env) (w : World) (c : IndexCache)
    (P : List EmbeddingRecord)
    (hc : w.cache = some c) (hwf : ∀ r ∈ P, WellFormedRecord r)
    (hsave : env.saveOk w.saveCount = true) :
    (saveIndex env (P.map encodeEmbeddingRecord) w).1 = .ok () ∧
    (loadIndex env (saveIndex env (P.map encodeEmbeddingRecord) w).2).1 = .ok P ∧
    (loadIndex env (saveIndex env (P.map encodeEmbeddingRecord) w).2).2 =
      (saveIndex env (P.map encodeEmbeddingRecord) w).2 := by
  have hp := mapM_encode_parse hwf
  obtain ⟨h1, hemb, hsome, _⟩ := saveIndex_ok hc hp hsave
  obtain ⟨c', hc'⟩ := Option.isSome_iff_exists.mp hsome
  have hce : c'.embeddings = P.map (fun r => ⟨r, computeNorm env r.vector⟩) := by
    simpa [World.cacheEmbeddings, hc'] using hemb
  have hcomp : ((fun entry => entry.record) ∘
      fun r => (⟨r, computeNorm env r.vector⟩ : CachedEmbedding)) = id := rfl
  refine ⟨h1, ?_, ?_⟩ <;>
    simp [loadIndex, ensureIndexLoaded_of_cache hc', hc', hce, List.map_map,
      hcomp, List.map_id]

/-- Witness for C8: saving `[tRecA]` and loading gives `[tRecA]` back. -/
theorem saveLoadRoundTrip_witness :
    (saveIndex tEnv ([tRecA].map encodeEmbeddingRecord) tW0).1 = .ok () ∧
    (loadIndex tEnv (saveIndex tEnv ([tRecA].map encodeEmbeddingRecord) tW0).2).1 =
      .ok [tRecA] := by
  have h := saveLoadRoundTrip tEnv tW0 tCacheEmpty [tRecA] rfl (by decide) rfl
  exact ⟨h.1, h.2.1⟩

/-- C10.  A record value without a `schemaVersion` key that otherwise passes
the contract parses successfully with `schemaVersion` defaulted to
`EMBEDDING_RECORD_SCHEMA_VERSION` (1); such an entry is kept (not dropped) by
`loadIndexFileFromDrive`, and the same defaulting applies when the raw value
is passed to `saveIndex` or `addEmbedding`. -/
theorem schemaVersionDefaultSpec (raw : Json) (r : EmbeddingRecord)
    (hnone : raw.lookup "schemaVersion" = none)
    (hp : zEmbeddingRecordParse raw = some r) :
    r.schemaVersion = EMBEDDING_RECORD_SCHEMA_VERSION ∧
    (∀ doc meta w, zEmbeddingIndexMetaParse doc = some meta → raw ∈ meta.records →
      w.drive = some doc →
      ∃ f, loadIndexFileFromDrive w = .ok (some f) ∧ r ∈ f.records) ∧
    (∀ env w c, w.cache = some c → env.saveOk w.saveCount = true →
      (saveIndex env [raw] w).1 = .ok () ∧
      (saveIndex env [raw] w).2.cacheRecords = [r]) ∧
    (∀ env w c, w.cache = some c → c.embeddings = [] → env.saveOk w.saveCount = true →
      (addEmbedding env raw w).1 = .ok () ∧
      (addEmbedding env raw w).2.cacheRecords = [r]) := by
  have hone : ([raw].mapM zEmbeddingRecordParse) = some [r] := by
    simp [List.mapM.loop, hp]
  refine ⟨?_, ?_, ?_, ?_⟩
  · cases raw <;> simp only [zEmbeddingRecordParse] at hp <;> try exact Option.noConfusion hp
    case obj kvs =>
      simp only [Option.bind_eq_bind, Option.bind_eq_some, Option.pure_def] at hp
      obtain ⟨id, hid, sv, hsv, st, hst, sid, hsid, vec, hvec, hp⟩ := hp
      rw [hnone] at hsv
      simp only [parseSchemaVersionField, Option.some.injEq] at hsv
      split at hp
      case isTrue =>
        simp only [Option.bind_eq_some, Option.some.injEq] at hp
        obtain ⟨ca, hca, meta, hmeta, hr⟩ := hp
        subst hr
        exact hsv.symm
      case isFalse => exact Option.noConfusion hp
  · intro doc meta w hm hmem hd
    refine ⟨⟨meta.schemaVersion, meta.createdAt, meta.updatedAt,
      meta.records.filterMap zEmbeddingRecordParse⟩, ?_, ?_⟩
    · simp only [loadIndexFileFromDrive, hd, hm]
    · exact List.mem_filterMap.mpr ⟨raw, hmem, hp⟩
  · intro env w c hc hs
    have h := saveIndex_ok hc hone hs
    refine ⟨h.1, ?_⟩
    rw [cacheRecords_eq_map, h.2.1]
    rfl
  · intro env w c hc hemp hs
    have hwfr := zEmbeddingRecordParse_wellFormed hp
    rw [addEmbedding_of_cache hc, hp]
    simp only [hemp, List.map_nil, upsertList, List.map_cons, List.map_nil]
    have hone2 : ([encodeEmbeddingRecord r].mapM zEmbeddingRecordParse) = some [r] := by
      simp [List.mapM.loop, zEmbeddingRecordParse_encode r hwfr]
    have h := saveIndex_ok hc hone2 hs
    refine ⟨h.1, ?_⟩
    rw [cacheRecords_eq_map, h.2.1]
    rfl

/-- A record value lacking the `schemaVersion` key, otherwise valid. -/
def tRawNoSv : Json :=
  Json.obj [("id", .str "idA"), ("sourceType", .str "knowledgeNode"),
    ("sourceId", .str "srcA"), ("vector", .arr [.num 1]), ("createdAt", .str tIso)]

/-- The record `tRawNoSv` parses to: `schemaVersion` defaulted to 1. -/
def tRecNoSv : EmbeddingRecord := ⟨"idA", 1, .knowledgeNode, "srcA", [1], tIso, none⟩

/-- Witness for C10: the concrete no-`schemaVersion` value parses with the
default and is stored by `saveIndex` with `schemaVersion = 1`. -/
theorem schemaVersionDefaultSpec_witness :
    tRecNoSv.schemaVersion = EMBEDDING_RECORD_SCHEMA_VERSION ∧
    (saveIndex tEnv [tRawNoSv] tW0).2.cacheRecords = [tRecNoSv] := by
  have h := schemaVersionDefaultSpec tRawNoSv tRecNoSv rfl (by decide)
  exact ⟨h.1, (h.2.2.1 tEnv tW0 tCacheEmpty rfl rfl).2⟩

instance (rs : List EmbeddingRecord) : Decidable (NoDupKeys rs) := by
  unfold NoDupKeys
  infer_instance

theorem map_record_mk (env : Env) (P : List EmbeddingRecord) :
    (P.map (fun r => (⟨r, computeNorm env r.vector⟩ : CachedEmbedding))).map
      (fun e => e.record) = P := by
  have hcomp : ((fun e : CachedEmbedding => e.record) ∘
      fun r => (⟨r, computeNorm env r.vector⟩ : CachedEmbedding)) = id := rfl
  rw [List.map_map, hcomp, List.map_id]

/-- C6.  Loading a persisted index document whose outer shape passes
`zEmbeddingIndexMeta` returns exactly the entries of `records` that satisfy
the `EmbeddingRecord` contract, in original order (`filterMap` keeps each
passing entry's parse and drops each malformed one without failing the
load); a document whose outer shape is invalid fails with the fatal
corrupt-index error. -/
theorem loadSpec (w : World) (doc : Json) (hd : w.drive = some doc) :
    (∀ meta, zEmbeddingIndexMetaParse doc = some meta →
      loadIndexFileFromDrive w =
        .ok (some ⟨meta.schemaVersion, meta.createdAt, meta.updatedAt,
          meta.records.filterMap zEmbeddingRecordParse⟩)) ∧
    (zEmbeddingIndexMetaParse doc = none →
      loadIndexFileFromDrive w = .error .corruptIndexFile) := by
  constructor
  · intro meta hm
    simp only [loadIndexFileFromDrive, hd, hm]
  · intro hm
    simp only [loadIndexFileFromDrive, hd, hm]

/-- A persisted document with three valid records and one structurally
invalid entry (`null`). -/
def tDocMixed : Json :=
  Json.obj [("schemaVersion", .num 1), ("createdAt", .str tIso),
    ("updatedAt", .str tIso),
    ("records", .arr [encodeEmbeddingRecord tRecA, Json.null,
      encodeEmbeddingRecord tRecB, encodeEmbeddingRecord tRecC])]

/-- A world whose Drive holds `tDocMixed` and whose cache is cold. -/
def tWDoc : World := ⟨some tDocMixed, none, 0, 0⟩

/-- Witness for C6: the document with 3 valid records and 1 malformed entry
loads to exactly the 3 valid ones, in order. -/
theorem loadSpec_witness :
    loadIndexFileFromDrive tWDoc =
      .ok (some ⟨1, tIso, tIso, [tRecA, tRecB, tRecC]⟩) := by
  have h := (loadSpec tWDoc tDocMixed rfl).1
    ⟨1, tIso, tIso, [encodeEmbeddingRecord tRecA, Json.null,
      encodeEmbeddingRecord tRecB, encodeEmbeddingRecord tRecC]⟩ rfl
  rw [h, show ([encodeEmbeddingRecord tRecA, Json.null, encodeEmbeddingRecord tRecB,
    encodeEmbeddingRecord tRecC].filterMap zEmbeddingRecordParse) =
    [tRecA, tRecB, tRecC] from by decide]

/-- Counterexample to C3 as stated: reachable caches can hold duplicate
keys.  `saveIndex` performs no duplicate check, so saving the same record
twice yields a cache with two records sharing an id; and `addEmbedding` of a
record matching one cached entry by source pair and another by id replaces
only the first match, leaving two records with the same id. -/
theorem uniqueKeysSpec_cex :
    ((saveIndex tEnv [encodeEmbeddingRecord tRecA, encodeEmbeddingRecord tRecA]
        tW0).1 = .ok () ∧
      (saveIndex tEnv [encodeEmbeddingRecord tRecA, encodeEmbeddingRecord tRecA]
        tW0).2.cacheRecords = [tRecA, tRecA] ∧
      ¬NoDupKeys [tRecA, tRecA]) ∧
    ((addEmbedding tEnv (encodeEmbeddingRecord tRecC) tWAB).1 = .ok () ∧
      (addEmbedding tEnv (encodeEmbeddingRecord tRecC) tWAB).2.cacheRecords =
        [tRecC, tRecB] ∧
      tRecC.id = tRecB.id ∧ NoDupKeys [tRecA, tRecB] ∧
      ¬NoDupKeys [tRecC, tRecB]) := by
  exact ⟨⟨rfl, by decide, by decide⟩, ⟨rfl, by decide, by decide,
    by decide, by decide⟩⟩

/-- C3 (amended).  Key uniqueness is not an invariant of all reachable
states (see the counterexample), but the preserved core holds: on a loaded
cache with unique keys, `addEmbedding` replaces the first record matching on
`id` or `(sourceType, sourceId)` in place rather than appending a duplicate
(the count stays fixed when a match exists), and when an id match coincides
with a source-pair match for every cached record, the resulting cache again
has unique keys on both identities. -/
theorem upsertKeyUniquenessSpec (env : Env) (w : World) (c : IndexCache)
    (raw : Json) (v : EmbeddingRecord)
    (hc : w.cache = some c)
    (hwfc : ∀ e ∈ c.embeddings, WellFormedRecord e.record)
    (hp : zEmbeddingRecordParse raw = some v)
    (hnd : NoDupKeys (c.embeddings.map (fun e => e.record)))
    (hcoh : ∀ r ∈ c.embeddings.map (fun e => e.record),
      (r.id = v.id ↔ (r.sourceType = v.sourceType ∧ r.sourceId = v.sourceId)))
    (hsave : env.saveOk w.saveCount = true) :
    (addEmbedding env raw w).1 = .ok () ∧
    (addEmbedding env raw w).2.cacheRecords =
      upsertList v (c.embeddings.map (fun e => e.record)) ∧
    NoDupKeys ((addEmbedding env raw w).2.cacheRecords) ∧
    ((∃ r ∈ c.embeddings.map (fun e => e.record),
        r.id = v.id ∨ (r.sourceType = v.sourceType ∧ r.sourceId = v.sourceId)) →
      ((addEmbedding env raw w).2.cacheRecords).length = c.embeddings.length) := by
  have hwfu : ∀ r ∈ upsertList v (c.embeddings.map (fun e => e.record)),
      WellFormedRecord r := by
    intro r hr
    rcases mem_upsertList hr with rfl | hr2
    · exact zEmbeddingRecordParse_wellFormed hp
    · obtain ⟨e, he, hre⟩ := List.mem_map.mp hr2
      exact hre ▸ hwfc e he
  have hmapm := mapM_encode_parse hwfu
  have heq : addEmbedding env raw w =
      saveIndex env
        ((upsertList v (c.embeddings.map (fun e => e.record))).map
          encodeEmbeddingRecord) w := by
    rw [addEmbedding_of_cache hc, hp]
  obtain ⟨h1, hemb, _, _⟩ := saveIndex_ok hc hmapm hsave
  rw [heq]
  have hrecs : (saveIndex env
      ((upsertList v (c.embeddings.map (fun e => e.record))).map
        encodeEmbeddingRecord) w).2.cacheRecords =
      upsertList v (c.embeddings.map (fun e => e.record)) := by
    rw [cacheRecords_eq_map, hemb, map_record_mk]
  refine ⟨h1, hrecs, ?_, ?_⟩
  · rw [hrecs]
    exact noDupKeys_upsertList hnd hcoh
  · intro hmatch
    rw [hrecs, length_upsertList_of_match hmatch, List.length_map]

/-- Witness for the amended C3: re-adding record A to the two-record cache
with coherent keys keeps the keys unique. -/
theorem upsertKeyUniquenessSpec_witness :
    (addEmbedding tEnv (encodeEmbeddingRecord tRecA) tWAB).1 = .ok () ∧
    NoDupKeys ((addEmbedding tEnv (encodeEmbeddingRecord tRecA) tWAB).2.cacheRecords) := by
  have h := upsertKeyUniquenessSpec tEnv tWAB tCacheAB (encodeEmbeddingRecord tRecA)
    tRecA rfl (by decide) (by decide) (by decide) (by decide) rfl
  exact ⟨h.1, h.2.2.1⟩

/-- The synchronous prefix of one `addEmbedding` task on a loaded cache,
up to (but not including) the `await saveJson` suspension point inside
`saveIndexFileToDrive`: validate the incoming value against the cache
snapshot `c`, compute the upserted full record list, re-validate it, build
the index file, and serialize the document about to be written.  Returns the
document, the file whose metadata the task will install in the cache after
the write, and the clock value at the suspension point. -/
def addPhase1 (env : Env) (c : IndexCache) (raw : Json) (clock : Nat) :
    Except IndexError (Json × EmbeddingIndexFile × Nat) :=
  match zEmbeddingRecordParse raw with
  | none => .error (.invalidRecordValue "addEmbedding")
  | some validRecord =>
    let records := c.embeddings.map (fun e => e.record)
    let rawList := (upsertList validRecord records).map encodeEmbeddingRecord
    let createdAtC : String × Nat :=
      if c.fileMeta.createdAt = "" then (env.now clock, clock + 1)
      else (c.fileMeta.createdAt, clock)
    let updatedAt := env.now createdAtC.2
    let clock2 := createdAtC.2 + 1
    match validateRecords rawList with
    | .error e => .error e
    | .ok validatedRecords =>
      let file : EmbeddingIndexFile :=
        ⟨EMBEDDING_INDEX_SCHEMA_VERSION, createdAtC.1, updatedAt, validatedRecords⟩
      .ok (encodeEmbeddingIndexFile { file with updatedAt := env.now clock2 },
        file, clock2 + 1)

/-- The remainder of the task after the suspension point: the awaited Drive
write lands against the then-current world, and on success the cache is
rebuilt from the task's own record list and swapped in. -/
def addPhase2 (env : Env) (doc : Json) (file : EmbeddingIndexFile) (w : World) :
    Except IndexError Unit × World :=
  match saveJson env doc w with
  | (.error e, w1) => (.error e, w1)
  | (.ok _, w1) =>
    match buildCachedEmbeddings env file.records with
    | .error e => (.error e, w1)
    | .ok embeddings =>
      (.ok (), { w1 with
        cache := some ⟨⟨file.schemaVersion, file.createdAt, file.updatedAt⟩,
          embeddings⟩ })

/-- The two-phase split is faithful: an uninterrupted `addEmbedding` on a
loaded cache is exactly its phase 1 (against the cache snapshot) followed by
its phase 2. -/
theorem addEmbedding_phases {env : Env} {w : World} {c : IndexCache} {raw : Json}
    {doc : Json} {file : EmbeddingIndexFile} {clock2 : Nat}
    (hc : w.cache = some c)
    (h1 : addPhase1 env c raw w.clock = .ok (doc, file, clock2)) :
    addEmbedding env raw w = addPhase2 env doc file { w with clock := clock2 } := by
  rw [addEmbedding_of_cache hc]
  cases hparse : zEmbeddingRecordParse raw with
  | none =>
    rw [addPhase1, hparse] at h1
    exact Except.noConfusion h1
  | some v =>
    rw [addPhase1, hparse] at h1
    cases hval : validateRecords ((upsertList v
        (c.embeddings.map (fun e => e.record))).map encodeEmbeddingRecord) with
    | error e =>
      simp only [hval] at h1
      exact Except.noConfusion h1
    | ok validated =>
      simp only [hval, Except.ok.injEq, Prod.mk.injEq] at h1
      obtain ⟨hdoc, hfile, hclk⟩ := h1
      rcases Decidable.em (c.fileMeta.createdAt = "") with hcr | hcr
      · simp only [if_pos hcr] at hdoc hfile hclk
        subst hdoc; subst hfile; subst hclk
        simp only [saveIndex, ensureIndexLoaded_of_cache hc, hc, if_pos hcr, hval,
          saveIndexFileToDrive, addPhase2, saveJson]
      · simp only [if_neg hcr] at hdoc hfile hclk
        subst hdoc; subst hfile; subst hclk
        simp only [saveIndex, ensureIndexLoaded_of_cache hc, hc, if_neg hcr, hval,
          saveIndexFileToDrive, addPhase2, saveJson]

/-- C9.  No mutual exclusion across the `await` boundaries: in the
interleaving A1, B1, A2, B2 of two concurrent `addEmbedding` tasks against
the same loaded empty index, both phase-1 computations read the same
pre-mutation cache snapshot (`tCacheEmpty`) and compute their full record
lists independently; after the first writer's save lands, the second
writer's save and cache swap overwrite it, and record A is gone from the
final cache — a lost update.  Conjuncts 3 and 4 certify that the two-phase
split is exactly `addEmbedding` when a task runs uninterrupted, and the last
conjunct shows the sequential composition keeps both records. -/
theorem lostUpdateSpec :
    ∃ docA fileA clkA docB fileB clkB clkB2,
      addPhase1 tEnv tCacheEmpty (encodeEmbeddingRecord tRecA) tW0.clock =
        .ok (docA, fileA, clkA) ∧
      addPhase1 tEnv tCacheEmpty (encodeEmbeddingRecord tRecB) clkA =
        .ok (docB, fileB, clkB) ∧
      addEmbedding tEnv (encodeEmbeddingRecord tRecA) tW0 =
        addPhase2 tEnv docA fileA { tW0 with clock := clkA } ∧
      (addPhase1 tEnv tCacheEmpty (encodeEmbeddingRecord tRecB) tW0.clock =
        .ok (docB, fileB, clkB2) ∧
       addEmbedding tEnv (encodeEmbeddingRecord tRecB) tW0 =
        addPhase2 tEnv docB fileB { tW0 with clock := clkB2 }) ∧
      (addPhase2 tEnv docB fileB
        (addPhase2 tEnv docA fileA { tW0 with clock := clkB }).2).2.cacheRecords =
        [tRecB] ∧
      tRecA ∉ (addPhase2 tEnv docB fileB
        (addPhase2 tEnv docA fileA { tW0 with clock := clkB }).2).2.cacheRecords ∧
      (addEmbedding tEnv (encodeEmbeddingRecord tRecB)
        (addEmbedding tEnv (encodeEmbeddingRecord tRecA) tW0).2).2.cacheRecords =
        [tRecA, tRecB] := by
  refine ⟨_, _, _, _, _, _, _, rfl, rfl, addEmbedding_phases rfl rfl,
    ⟨rfl, addEmbedding_phases rfl rfl⟩, by decide, by decide, by decide⟩

/-- C5.  The retry wrapper around one provider call: a transient failure
(HTTP 429, any 5xx, or a connect timeout — exactly the `isRetryable`
statuses, as the third conjunct characterizes) on every attempt produces
exactly `MAX_RETRIES + 1 = 4` total attempts with backoff sleeps
`baseDelay * 2 ^ (attempt - 1)` = 200, 400, 800 ms before the retries, and a
final error reporting the total attempt count; a non-transient failure or a
malformed (length-mismatched) response fails after exactly one attempt with
no sleep. -/
theorem retryPolicySpec (provider : ProviderFun) (inputs : List String)
    (hne : inputs ≠ []) :
    (∀ st tmo msg, (∀ n, provider n inputs = .failure st tmo msg) →
      isRetryable ⟨st, tmo, msg⟩ = true →
      callOpenAIEmbeddings provider inputs =
        (.error (.retriesExhausted
          ("embedBatch(model=" ++ EMBEDDING_MODEL ++ ", count=" ++
            toString inputs.length ++ ")") (MAX_RETRIES + 1) true msg),
          [200, 400, 800])) ∧
    (∀ st tmo msg, provider 0 inputs = .failure st tmo msg →
      isRetryable ⟨st, tmo, msg⟩ = false →
      callOpenAIEmbeddings provider inputs =
        (.error (.retriesExhausted
          ("embedBatch(model=" ++ EMBEDDING_MODEL ++ ", count=" ++
            toString inputs.length ++ ")") 1 false msg), [])) ∧
    (∀ st tmo msg, isRetryable ⟨st, tmo, msg⟩ = true ↔
      (st = some 429 ∨ (∃ s, st = some s ∧ 500 ≤ s ∧ s < 600) ∨ tmo = true)) ∧
    (∀ data, provider 0 inputs = .success data → data.length ≠ inputs.length →
      callOpenAIEmbeddings provider inputs =
        (.error (.retriesExhausted
          ("embedBatch(model=" ++ EMBEDDING_MODEL ++ ", count=" ++
            toString inputs.length ++ ")") 1 false
          ("Embedding response length mismatch. Expected=" ++
            toString inputs.length ++ " Actual=" ++ toString data.length ++ ".")),
          [])) := by
  have hlen : ¬inputs.length = 0 := fun h => hne (List.length_eq_zero.mp h)
  refine ⟨?_, ?_, ?_, ?_⟩
  · intro st tmo msg hprov hretry
    simp [callOpenAIEmbeddings, hlen, withRetries, withRetriesGo, attemptCall,
      hprov, hretry, MAX_RETRIES, RETRY_BASE_DELAY_MS]
  · intro st tmo msg hprov hretry
    simp [callOpenAIEmbeddings, hlen, withRetries, withRetriesGo, attemptCall,
      hprov, hretry, MAX_RETRIES, RETRY_BASE_DELAY_MS]
  · intro st tmo msg
    cases tmo <;> cases st <;>
      simp [isRetryable, Option.some.injEq] <;> omega
  · intro data hprov hmis
    have hretry : isRetryable ⟨none, false,
        "Embedding response length mismatch. Expected=" ++ toString inputs.length ++
          " Actual=" ++ toString data.length ++ "."⟩ = false := by
      simp [isRetryable]
    simp [callOpenAIEmbeddings, hlen, withRetries, withRetriesGo, attemptCall,
      hprov, hmis, hretry, MAX_RETRIES, RETRY_BASE_DELAY_MS]

/-- A provider stub that always fails with HTTP 429. -/
def t429Provider : ProviderFun := fun _ _ => .failure (some 429) false "rate limited"

/-- Witness for C5: the always-429 stub exhausts the retries after 4 total
attempts, having slept 200, 400 and 800 ms. -/
theorem retryPolicySpec_witness :
    callOpenAIEmbeddings t429Provider ["hello"] =
      (.error (.retriesExhausted
        ("embedBatch(model=" ++ EMBEDDING_MODEL ++ ", count=" ++
          toString (["hello"] : List String).length ++ ")") (MAX_RETRIES + 1) true
        "rate limited"), [200, 400, 800]) :=
  (retryPolicySpec t429Provider ["hello"] (by simp)).1 (some 429) false
    "rate limited" (fun _ => rfl) (by decide)

/-! ### Batching lemmas for `embedBatch` -/

theorem extractEmbeddings_all_some (f : String → List ℚ) :
    ∀ (idx : Nat) (l : List String),
      extractEmbeddings idx (l.map (fun t => some (f t))) = .ok (l.map f)
  | _, [] => rfl
  | idx, t :: ts => by
    simp only [List.map_cons, extractEmbeddings,
      extractEmbeddings_all_some f (idx + 1) ts]
    rfl

/-- A well-behaved provider (one vector per input, in order) makes one
retry-free call succeed with the per-input vectors. -/
theorem callOpenAIEmbeddings_ok (provider : ProviderFun) (f : String → List ℚ)
    (hprov : ∀ n inputs, provider n inputs = .success (inputs.map (fun t => some (f t))))
    (chunk : List String) (hne : chunk ≠ []) :
    callOpenAIEmbeddings provider chunk = (.ok (chunk.map f), []) := by
  have hlen : ¬chunk.length = 0 := fun h => hne (List.length_eq_zero.mp h)
  have hmis : ¬((chunk.map (fun t => some (f t))).length ≠ chunk.length) := by
    simp
  simp [callOpenAIEmbeddings, hlen, withRetries, withRetriesGo, attemptCall, hprov,
    hmis, extractEmbeddings_all_some f 0 chunk]

theorem chunksOfBatch_flatten : ∀ l : List String, (chunksOfBatch l).flatten = l
  | [] => by simp [chunksOfBatch]
  | t :: ts => by
    rw [chunksOfBatch]
    simp only [List.flatten_cons]
    rw [chunksOfBatch_flatten ((t :: ts).drop MAX_BATCH_SIZE), List.take_append_drop]
termination_by l => l.length
decreasing_by
  simp only [List.length_drop, List.length_cons, MAX_BATCH_SIZE]
  omega

theorem chunksOfBatch_ne_nil : ∀ (l : List String), ∀ ch ∈ chunksOfBatch l, ch ≠ []
  | [] => by simp [chunksOfBatch]
  | t :: ts => by
    rw [chunksOfBatch]
    intro ch hch
    rcases List.mem_cons.mp hch with hch | hch
    · subst hch
      simp [MAX_BATCH_SIZE]
    · exact chunksOfBatch_ne_nil ((t :: ts).drop MAX_BATCH_SIZE) ch hch
termination_by l => l.length
decreasing_by
  simp only [List.length_drop, List.length_cons, MAX_BATCH_SIZE]
  omega

theorem chunksOfBatch_length_le :
    ∀ (l : List String), ∀ ch ∈ chunksOfBatch l, ch.length ≤ MAX_BATCH_SIZE
  | [] => by simp [chunksOfBatch]
  | t :: ts => by
    rw [chunksOfBatch]
    intro ch hch
    rcases List.mem_cons.mp hch with hch | hch
    · subst hch
      simpa using List.length_take_le MAX_BATCH_SIZE (t :: ts)
    · exact chunksOfBatch_length_le ((t :: ts).drop MAX_BATCH_SIZE) ch hch
termination_by l => l.length
decreasing_by
  simp only [List.length_drop, List.length_cons, MAX_BATCH_SIZE]
  omega

theorem chunksOfBatch_small {l : List String} (hne : l ≠ [])
    (hle : l.length ≤ MAX_BATCH_SIZE) : chunksOfBatch l = [l] := by
  cases l with
  | nil => exact absurd rfl hne
  | cons t ts =>
    rw [chunksOfBatch, List.take_of_length_le hle, List.drop_eq_nil_of_le hle]
    simp [chunksOfBatch]

/-- With a well-behaved provider, the chunk loop embeds every chunk in
order, concatenating the per-chunk results and tracing the chunk inputs. -/
theorem embedChunks_ok (provider : ProviderFun) (f : String → List ℚ)
    (hprov : ∀ n inputs, provider n inputs = .success (inputs.map (fun t => some (f t))))
    (chunks : List (List String)) (hne : ∀ ch ∈ chunks, ch ≠ []) :
    embedChunks provider chunks = (.ok (chunks.flatten.map f), [], chunks) := by
  induction chunks with
  | nil => rfl
  | cons ch rest ih =>
    simp only [embedChunks,
      callOpenAIEmbeddings_ok provider f hprov ch (hne ch (List.mem_cons_self ch rest)),
      ih (fun x hx => hne x (List.mem_cons_of_mem ch hx)), List.flatten_cons,
      List.map_append, List.nil_append]

theorem normalizeTextsFrom_ok (ts : List String) :
    ∀ idx, (∀ t ∈ ts, jsTrim t ≠ "") →
      normalizeTextsFrom idx ts = .ok (ts.map jsTrim) := by
  induction ts with
  | nil => intro idx _; rfl
  | cons t ts ih =>
    intro idx h
    simp only [normalizeTextsFrom, if_neg (h t (List.mem_cons_self t ts)),
      ih (idx + 1) (fun x hx => h x (List.mem_cons_of_mem t hx)), List.map_cons]
    rfl

theorem normalizeTextsFrom_err (ts : List String) :
    ∀ (idx i : Nat) (hi : i < ts.length),
      jsTrim (ts.get ⟨i, hi⟩) = "" →
      (∀ j (hj : j < i), jsTrim (ts.get ⟨j, lt_trans hj hi⟩) ≠ "") →
      normalizeTextsFrom idx ts = .error (.emptyTextAt (idx + i)) := by
  induction ts with
  | nil =>
    intro idx i hi
    simp at hi
  | cons t ts ih =>
    intro idx i hi he hprev
    cases i with
    | zero =>
      simp only [List.get] at he
      simp only [normalizeTextsFrom, if_pos he, Nat.add_zero]
    | succ i2 =>
      have ht : jsTrim t ≠ "" := hprev 0 (Nat.succ_pos i2)
      have hi2 : i2 < ts.length := Nat.lt_of_succ_lt_succ hi
      have he2 : jsTrim (ts.get ⟨i2, hi2⟩) = "" := he
      have hprev2 : ∀ j (hj : j < i2), jsTrim (ts.get ⟨j, lt_trans hj hi2⟩) ≠ "" :=
        fun j hj => hprev (j + 1) (Nat.succ_lt_succ hj)
      have harith : idx + (i2 + 1) = idx + 1 + i2 := by omega
      rw [harith]
      simp only [normalizeTextsFrom, if_neg ht]
      rw [ih (idx + 1) i2 hi2 he2 hprev2]
      rfl

/-- C4.  With a provider returning exactly one vector per input in input
order, `embedBatch` on a non-empty list of texts that all trim non-empty
returns one vector per text in text order (the trimmed text's vector),
issuing the consecutive chunks of at most `MAX_BATCH_SIZE` trimmed texts in
order (`chunksOfBatch`, whose concatenation is the full trimmed list and
whose chunks respect the bound) with no retries; when some text trims to
empty, it fails naming the first offending index. -/
theorem embedBatchSpec (provider : ProviderFun) (f : String → List ℚ)
    (texts : List String)
    (hprov : ∀ n inputs, provider n inputs = .success (inputs.map (fun t => some (f t))))
    (hne : texts ≠ []) :
    ((∀ t ∈ texts, jsTrim t ≠ "") →
      embedBatch provider texts =
        (.ok (texts.map (fun t => f (jsTrim t))), [],
          chunksOfBatch (texts.map jsTrim)) ∧
      (chunksOfBatch (texts.map jsTrim)).flatten = texts.map jsTrim ∧
      (∀ ch ∈ chunksOfBatch (texts.map jsTrim), ch.length ≤ MAX_BATCH_SIZE)) ∧
    (∀ i (hi : i < texts.length), jsTrim (texts.get ⟨i, hi⟩) = "" →
      (∀ j (hj : j < i), jsTrim (texts.get ⟨j, lt_trans hj hi⟩) ≠ "") →
      embedBatch provider texts = (.error (.emptyTextAt i), [], [])) := by
  have hlen : ¬texts.length = 0 := fun h => hne (List.length_eq_zero.mp h)
  constructor
  · intro hall
    have hnorm := normalizeTextsFrom_ok texts 0 hall
    have hmne : texts.map jsTrim ≠ [] := by
      cases texts with
      | nil => exact absurd rfl hne
      | cons t ts => simp
    refine ⟨?_, chunksOfBatch_flatten _, chunksOfBatch_length_le _⟩
    rcases Decidable.em ((texts.map jsTrim).length ≤ MAX_BATCH_SIZE) with hle | hgt
    · simp only [embedBatch, if_neg hlen, normalizeTexts, hnorm, if_pos hle,
        callOpenAIEmbeddings_ok provider f hprov _ hmne,
        chunksOfBatch_small hmne hle, List.map_map]
      rfl
    · simp only [embedBatch, if_neg hlen, normalizeTexts, hnorm, if_neg hgt,
        embedChunks_ok provider f hprov _ (chunksOfBatch_ne_nil _),
        chunksOfBatch_flatten, List.map_map]
      rw [if_neg (by simp)]
      rfl
  · intro i hi he hprev
    have herr := normalizeTextsFrom_err texts 0 i hi he hprev
    rw [Nat.zero_add] at herr
    simp only [embedBatch, if_neg hlen, normalizeTexts, herr]

/-- A constant per-text embedding used by the C4 witness. -/
def tVecOf : String → List ℚ := fun _ => [1, 0]

/-- A well-behaved provider stub: one vector per input, in order. -/
def tOkProvider : ProviderFun :=
  fun _ inputs => .success (inputs.map (fun t => some (tVecOf t)))

/-- Witness for C4: two texts (with whitespace to trim) embed to two
vectors in order, issued as a single chunk. -/
theorem embedBatchSpec_witness :
    embedBatch tOkProvider [" a", "b "] =
      (.ok ([" a", "b "].map (fun t => tVecOf (jsTrim t))), [],
        chunksOfBatch ([" a", "b "].map jsTrim)) :=
  ((embedBatchSpec tOkProvider tVecOf [" a", "b "] (fun _ _ => rfl)
    (by simp)).1 (by decide)).1
